import Mathlib

/-!
Verification development for the x86 table generator `parseinstrs.py`
(libx86decode).  The Python source is shallowly embedded: every definition
below mirrors one Python function or constant of the source; machine
integers are `Nat`/`Int` (Python ints are unbounded, so no wrap-around is
modelled except where the source masks explicitly), fallible code returns
`Option`/`Except`.
-/

set_option maxRecDepth 10000

deriving instance DecidableEq for Except

/-- The packed descriptor record of `InstrFlags`, one field per bitfield of
the 48-bit record (plus the 6 `unused` bits).  All fields default to 0 as in
the Python `__new__`. -/
structure InstrFlags where
  modrm_idx : Nat := 0
  modreg_idx : Nat := 0
  vexreg_idx : Nat := 0
  zeroreg_idx : Nat := 0
  imm_idx : Nat := 0
  zeroreg_val : Nat := 0
  lock : Nat := 0
  imm_control : Nat := 0
  vsib : Nat := 0
  op0_size : Nat := 0
  op1_size : Nat := 0
  op2_size : Nat := 0
  op3_size : Nat := 0
  opsize : Nat := 0
  size_fix1 : Nat := 0
  size_fix2 : Nat := 0
  instr_width : Nat := 0
  op0_regty : Nat := 0
  op1_regty : Nat := 0
  op2_regty : Nat := 0
  unused : Nat := 0
  ign66 : Nat := 0
  deriving Repr, DecidableEq

/-- One step of `InstrFlags._encode`: `enc = enc << size | (value & ((1 << size) - 1))`. -/
def encStep (enc : Nat) (value : Nat) (size : Nat) : Nat :=
  (enc <<< size) ||| (value &&& ((1 <<< size) - 1))

/-- `InstrFlags._encode`: fold all fields, most significant first (the Python
source lists the fields low-bit-first and reverses the list, so `ign66` is
folded first / most significant and `modrm_idx` last / least significant). -/
def InstrFlags.encodeBits (f : InstrFlags) : Nat :=
  let e := encStep 0 f.ign66 1
  let e := encStep e f.unused 6
  let e := encStep e f.op2_regty 3
  let e := encStep e f.op1_regty 3
  let e := encStep e f.op0_regty 3
  let e := encStep e f.instr_width 1
  let e := encStep e f.size_fix2 2
  let e := encStep e f.size_fix1 3
  let e := encStep e f.opsize 2
  let e := encStep e f.op3_size 2
  let e := encStep e f.op2_size 2
  let e := encStep e f.op1_size 2
  let e := encStep e f.op0_size 2
  let e := encStep e f.vsib 1
  let e := encStep e f.imm_control 3
  let e := encStep e f.lock 1
  let e := encStep e f.zeroreg_val 1
  let e := encStep e f.imm_idx 2
  let e := encStep e f.zeroreg_idx 2
  let e := encStep e f.vexreg_idx 2
  let e := encStep e f.modreg_idx 2
  encStep e f.modrm_idx 2

/-- The `ENCODINGS` table.  Slot indices are stored XORed with 3 exactly as in
the source (`0^3 = 3`, `1^3 = 2`, `2^3 = 1`, `3^3 = 0`). -/
def ENCODINGS : String → Option InstrFlags
  | "NP" => some {}
  | "M" => some { modrm_idx := 3 }
  | "M1" => some { modrm_idx := 3, imm_idx := 2, imm_control := 1 }
  | "MI" => some { modrm_idx := 3, imm_idx := 2, imm_control := 4 }
  | "MC" => some { modrm_idx := 3, zeroreg_idx := 2, zeroreg_val := 1 }
  | "MR" => some { modrm_idx := 3, modreg_idx := 2 }
  | "RM" => some { modrm_idx := 2, modreg_idx := 3 }
  | "RMA" => some { modrm_idx := 2, modreg_idx := 3, zeroreg_idx := 1 }
  | "MRI" => some { modrm_idx := 3, modreg_idx := 2, imm_idx := 1, imm_control := 4 }
  | "RMI" => some { modrm_idx := 2, modreg_idx := 3, imm_idx := 1, imm_control := 4 }
  | "MRC" => some { modrm_idx := 3, modreg_idx := 2, zeroreg_idx := 1, zeroreg_val := 1 }
  | "AM" => some { modrm_idx := 2, zeroreg_idx := 3 }
  | "MA" => some { modrm_idx := 3, zeroreg_idx := 2 }
  | "I" => some { imm_idx := 3, imm_control := 4 }
  | "IA" => some { zeroreg_idx := 3, imm_idx := 2, imm_control := 4 }
  | "O" => some { modreg_idx := 3 }
  | "OI" => some { modreg_idx := 3, imm_idx := 2, imm_control := 4 }
  | "OA" => some { modreg_idx := 3, zeroreg_idx := 2 }
  | "S" => some { modreg_idx := 3, vsib := 1 }
  | "A" => some { zeroreg_idx := 3 }
  | "D" => some { imm_idx := 3, imm_control := 6 }
  | "FD" => some { zeroreg_idx := 3, imm_idx := 2, imm_control := 2 }
  | "TD" => some { zeroreg_idx := 2, imm_idx := 3, imm_control := 2 }
  | "RVM" => some { modrm_idx := 1, modreg_idx := 3, vexreg_idx := 2 }
  | "RVMI" => some { modrm_idx := 1, modreg_idx := 3, vexreg_idx := 2, imm_idx := 0, imm_control := 4 }
  | "RVMR" => some { modrm_idx := 1, modreg_idx := 3, vexreg_idx := 2, imm_idx := 0, imm_control := 3 }
  | "RMV" => some { modrm_idx := 2, modreg_idx := 3, vexreg_idx := 1 }
  | "VM" => some { modrm_idx := 2, vexreg_idx := 3 }
  | "VMI" => some { modrm_idx := 2, vexreg_idx := 3, imm_idx := 1, imm_control := 4 }
  | "MVR" => some { modrm_idx := 3, modreg_idx := 1, vexreg_idx := 2 }
  | _ => none

/-- `OpKind`: operand size (with `SZ_OP = -1`, `SZ_VEC = -2` as in the source)
and kind string. -/
structure OpKind where
  size : Int
  kind : String
  deriving Repr, DecidableEq

def OpKind.SZ_OP : Int := -1
def OpKind.SZ_VEC : Int := -2
def OpKind.K_MEM : String := "mem"
def OpKind.K_IMM : String := "imm"

/-- The `OPKINDS` table. -/
def OPKINDS : String → Option OpKind
  | "IMM" => some ⟨OpKind.SZ_OP, OpKind.K_IMM⟩
  | "IMM8" => some ⟨1, OpKind.K_IMM⟩
  | "IMM16" => some ⟨2, OpKind.K_IMM⟩
  | "IMM32" => some ⟨4, OpKind.K_IMM⟩
  | "IMM64" => some ⟨8, OpKind.K_IMM⟩
  | "GP" => some ⟨OpKind.SZ_OP, "GP"⟩
  | "GP8" => some ⟨1, "GP"⟩
  | "GP16" => some ⟨2, "GP"⟩
  | "GP32" => some ⟨4, "GP"⟩
  | "GP64" => some ⟨8, "GP"⟩
  | "MMX" => some ⟨8, "MMX"⟩
  | "XMM" => some ⟨OpKind.SZ_VEC, "XMM"⟩
  | "XMM8" => some ⟨1, "XMM"⟩
  | "XMM16" => some ⟨2, "XMM"⟩
  | "XMM32" => some ⟨4, "XMM"⟩
  | "XMM64" => some ⟨8, "XMM"⟩
  | "XMM128" => some ⟨16, "XMM"⟩
  | "XMM256" => some ⟨32, "XMM"⟩
  | "SEG" => some ⟨OpKind.SZ_OP, "SEG"⟩
  | "SEG16" => some ⟨2, "SEG"⟩
  | "FPU" => some ⟨10, "FPU"⟩
  | "MEM" => some ⟨OpKind.SZ_OP, OpKind.K_MEM⟩
  | "MEMV" => some ⟨OpKind.SZ_VEC, OpKind.K_MEM⟩
  | "MEMZ" => some ⟨0, OpKind.K_MEM⟩
  | "MEM8" => some ⟨1, OpKind.K_MEM⟩
  | "MEM16" => some ⟨2, OpKind.K_MEM⟩
  | "MEM32" => some ⟨4, OpKind.K_MEM⟩
  | "MEM64" => some ⟨8, OpKind.K_MEM⟩
  | "MEM128" => some ⟨16, OpKind.K_MEM⟩
  | "MEM256" => some ⟨32, OpKind.K_MEM⟩
  | "MEM512" => some ⟨64, OpKind.K_MEM⟩
  | "MASK8" => some ⟨1, "MASK"⟩
  | "MASK16" => some ⟨2, "MASK"⟩
  | "MASK32" => some ⟨4, "MASK"⟩
  | "MASK64" => some ⟨8, "MASK"⟩
  | "BND" => some ⟨0, "BND"⟩
  | "CR" => some ⟨0, "CR"⟩
  | "DR" => some ⟨0, "DR"⟩
  | _ => none

/-- `InstrDesc.OPKIND_REGTYS.get(kind, 7)`. -/
def OPKIND_REGTYS (kind : String) : Nat :=
  match kind with
  | "GP" => 0 | "FPU" => 1 | "XMM" => 2 | "MASK" => 3 | "MMX" => 4 | "BND" => 5
  | _ => 7

/-- `InstrDesc.OPKIND_SIZES`: maps an operand size to its 3-bit size code;
`SZ_OP` (`-1`) maps to `-2` and `SZ_VEC` (`-2`) maps to `-3`.  Sizes outside
the table raise `KeyError` in Python, hence `Option`. -/
def OPKIND_SIZES (size : Int) : Option Int :=
  if size = 0 then some 0
  else if size = 1 then some 1
  else if size = 2 then some 2
  else if size = 4 then some 3
  else if size = 8 then some 4
  else if size = 16 then some 5
  else if size = 32 then some 6
  else if size = 64 then some 7
  else if size = 10 then some 0
  else if size = OpKind.SZ_OP then some (-2)
  else if size = OpKind.SZ_VEC then some (-3)
  else none

/-- `InstrDesc`: mnemonic, encoding tag, operand kinds, flag set (a Python
`frozenset`; only membership is used, so a list of tag strings suffices). -/
structure InstrDesc where
  mnemonic : String
  encoding : String
  operands : List OpKind
  flags : List String
  deriving Repr, DecidableEq

/-- Whitespace characters recognised by Python `str.split()` (the subset that
can occur in the generator's input lines). -/
def isWs (c : Char) : Bool :=
  c = ' ' || c = '\t' || c = '\n' || c = '\r'

/-- Worker for `pySplit`: `cur` is the current word, reversed. -/
def pySplitGo : List Char → List Char → List String
  | [], cur => if cur.isEmpty then [] else [⟨cur.reverse⟩]
  | c :: cs, cur =>
    if isWs c then
      if cur.isEmpty then pySplitGo cs [] else (⟨cur.reverse⟩ : String) :: pySplitGo cs []
    else pySplitGo cs (c :: cur)

/-- Python `str.split()` with no argument: split on whitespace runs,
discarding empty fields. -/
def pySplit (s : String) : List String :=
  pySplitGo s.toList []

/-- `InstrDesc.parse`: word 0 is the encoding tag, words 1..4 operand kinds
(dash = absent), word 5 the mnemonic, the rest flags.  A missing word 5 or an
unknown operand kind is fatal (`Option`). -/
def InstrDesc.parse (desc : String) : Option InstrDesc := do
  let ws := pySplit desc
  let opWords := ((ws.drop 1).take 4).filter (· ≠ "-")
  let operands ← opWords.mapM OPKINDS
  let encoding ← ws.head?
  let mnemonic ← ws[5]?
  return ⟨mnemonic, encoding, operands, ws.drop 6⟩

/-- Errors raised by `InstrDesc.encode` (all Python `Exception`s). -/
inductive EncErr where
  | unknownEncoding
  | unknownOpKindSize
  | invalidFixedSizes
  | tooManyOperands
  | sizeIndexNotFound
  | invalidOp3Regty
  | noImmOperand
  deriving Repr, DecidableEq

/-- Insert into an ascending list of distinct values, keeping ascending order. -/
def insertAsc (x : Int) : List Int → List Int
  | [] => [x]
  | y :: ys => if x < y then x :: y :: ys else y :: insertAsc x ys

/-- The distinct operand size codes of a descriptor, ascending.  This models
the Python `set` of size codes: the only order-sensitive consumer is the
stable sort over the codes ≥ 0, which all lie in 0..7, and CPython's small-int
sets yield those in ascending order. -/
def InstrDesc.opszSet (d : InstrDesc) : Option (List Int) := do
  let codes ← d.operands.mapM (fun op => OPKIND_SIZES op.size)
  return codes.foldl (fun acc c => if c ∈ acc then acc else insertAsc c acc) []

/-- Key of the fixed-size sort: `1 <= x <= 4`. -/
def key14 (x : Int) : Bool := decide (1 ≤ x) && decide (x ≤ 4)

/-- Insert for the stable sort by `key14` with `false < true`: scan past
elements whose key is ≤ the new element's key. -/
def ins14 (x : Int) : List Int → List Int
  | [] => [x]
  | y :: ys => if key14 y && !key14 x then x :: y :: ys else y :: ins14 x ys

/-- Stable sort by `key14` (Python's stable
`sorted(..., key=lambda x: 1 <= x <= 4)`). -/
def stableSortKey14 (l : List Int) : List Int :=
  l.foldl (fun acc x => ins14 x acc) []

/-- `fixed = sorted((x for x in opsz if x >= 0), key=lambda x: 1 <= x <= 4)`. -/
def InstrDesc.fixedSizes (d : InstrDesc) : Option (List Int) := do
  let opsz ← d.opszSet
  return stableSortKey14 (opsz.filter (fun x => 0 ≤ x))

/-- The condition under which `InstrDesc.encode` raises
"invalid fixed operand sizes": `len(fixed) > 2 or (len(fixed) == 2 and not
(1 <= fixed[1] <= 4))`. -/
def badFixed (fixed : List Int) : Prop :=
  fixed.length > 2 ∨ (fixed.length = 2 ∧ ¬(1 ≤ fixed.getD 1 0 ∧ fixed.getD 1 0 ≤ 4))

instance (fixed : List Int) : Decidable (badFixed fixed) := by
  unfold badFixed; infer_instance

/-- `sizes = (fixed + [1, 1])[:2] + [-2, -3]`. -/
def sizesList (fixed : List Int) : List Int :=
  (fixed ++ [1, 1]).take 2 ++ [-2, -3]

/-- Python `list.index` (first index), as an `Option`. -/
def listIndex : List Int → Int → Option Nat
  | [], _ => none
  | y :: ys, x => if y = x then some 0 else (listIndex ys x).map (· + 1)

/-- `extraflags["op%d_size" % i] = szIdx` (indices ≥ 4 create an invalid
extraflags key, whose error Python only raises at the final `_replace`; see
`encodeFlags`). -/
def setOpSize (r : InstrFlags) (i szIdx : Nat) : InstrFlags :=
  match i with
  | 0 => { r with op0_size := szIdx }
  | 1 => { r with op1_size := szIdx }
  | 2 => { r with op2_size := szIdx }
  | 3 => { r with op3_size := szIdx }
  | _ => r

/-- `extraflags["op%d_regty" % i] = regty` for `i < 3`. -/
def setOpRegty (r : InstrFlags) (i regty : Nat) : InstrFlags :=
  match i with
  | 0 => { r with op0_regty := regty }
  | 1 => { r with op1_regty := regty }
  | _ => { r with op2_regty := regty }

/-- The per-operand loop of `InstrDesc.encode`: set `op{i}_size`, and for
`i < 3` the register type; operand 3 must be VEC (XMM, regty 2) or
kind-unknown (regty 7). -/
def encodeOps (sizes : List Int) : List OpKind → Nat → InstrFlags → Except EncErr InstrFlags
  | [], _, r => .ok r
  | op :: rest, i, r => do
    let sz ← match OPKIND_SIZES op.size with
      | some v => Except.ok v
      | none => Except.error .unknownOpKindSize
    let szIdx ← match listIndex sizes sz with
      | some v => Except.ok v
      | none => Except.error .sizeIndexNotFound
    let r := setOpSize r i szIdx
    let r ← if i < 3 then
        Except.ok (setOpRegty r i (OPKIND_REGTYS op.kind))
      else if OPKIND_REGTYS op.kind ≠ 7 ∧ OPKIND_REGTYS op.kind ≠ 2 then
        Except.error .invalidOp3Regty
      else
        Except.ok r
    encodeOps sizes rest (i + 1) r

/-- The miscellaneous-flag assignments of `InstrDesc.encode`. -/
def encodeMisc (d : InstrDesc) (ign66 : Bool) (r : InstrFlags) : InstrFlags :=
  let r := if d.flags.contains "SIZE_8" then { r with opsize := 1 } else r
  let r := if d.flags.contains "DEF64" then { r with opsize := 2 } else r
  let r := if d.flags.contains "FORCE64" then { r with opsize := 3 } else r
  let r := if d.flags.contains "INSTR_WIDTH" then { r with instr_width := 1 } else r
  let r := if d.flags.contains "LOCK" then { r with lock := 1 } else r
  let r := if d.flags.contains "VSIB" then { r with vsib := 1 } else r
  if ¬d.flags.contains "USE66" ∧ (ign66 = true ∨ d.flags.contains "IGN66") then
    { r with ign66 := 1 }
  else r

/-- The condition of the immediate-trimming step. -/
def immByteCond (d : InstrDesc) (immOp : OpKind) : Prop :=
  d.flags.contains "IMM_8" = true ∨ immOp.size = 1 ∨
    (immOp.size = OpKind.SZ_OP ∧ d.flags.contains "SIZE_8" = true)

instance (d : InstrDesc) (immOp : OpKind) : Decidable (immByteCond d immOp) := by
  unfold immByteCond; infer_instance

/-- `InstrDesc.encode`, up to (and excluding) the final bit-packing: returns
the `InstrFlags` record `flags._replace(**extraflags)`.  The error order
follows the source: encoding lookup, size-code lookup (inside the set
comprehension), the fixed-size check, the per-operand loop, the immediate
step (`next(...)` raises `StopIteration` when no immediate operand exists),
and finally `_replace` (which raises for the invalid `op4_size`-and-beyond
keys produced by descriptors with more than 4 operands). -/
def InstrDesc.encodeFlags (d : InstrDesc) (ign66 : Bool) : Except EncErr InstrFlags := do
  let flags ← match ENCODINGS d.encoding with
    | some f => Except.ok f
    | none => Except.error .unknownEncoding
  let opsz ← match d.opszSet with
    | some l => Except.ok l
    | none => Except.error .unknownOpKindSize
  let fixed := stableSortKey14 (opsz.filter (fun x => 0 ≤ x))
  if badFixed fixed then throw .invalidFixedSizes
  let sizes := sizesList fixed
  let r : InstrFlags := { flags with size_fix1 := (sizes.getD 0 0).toNat,
                                     size_fix2 := (sizes.getD 1 0 - 1).toNat }
  let r ← encodeOps sizes d.operands 0 r
  let r := encodeMisc d ign66 r
  let r ← if flags.imm_control ≥ 4 then
      match d.operands.find? (fun op => op.kind = OpKind.K_IMM) with
      | none => throw .noImmOperand
      | some immOp =>
        if immByteCond d immOp then
          Except.ok { r with imm_control := flags.imm_control ||| 1 }
        else Except.ok r
    else Except.ok r
  if d.operands.length > 4 then throw .tooManyOperands
  return r

/-- `InstrDesc.encode`: the mnemonic plus the three little-endian 16-bit words
of the packed record (`(enc >> i) & 0xffff for i in range(0, 48, 16)`). -/
def InstrDesc.encode (d : InstrDesc) (ign66 : Bool) :
    Except EncErr (String × Nat × Nat × Nat) := do
  let r ← d.encodeFlags ign66
  let enc := r.encodeBits
  return ("FDI_" ++ d.mnemonic, enc &&& 0xffff, (enc >>> 16) &&& 0xffff, (enc >>> 32) &&& 0xffff)

/-! ### Trie entries and the table -/

/-- `EntryKind` with its Python `Enum` values. -/
inductive EntryKind where
  | NONE | INSTR | TABLE256 | TABLE16 | TABLE8E | TABLE_PREFIX | TABLE_VEX | TABLE_ROOT
  deriving Repr, DecidableEq

/-- `EntryKind.value` (`TABLE_ROOT` is `-1`). -/
def EntryKind.value : EntryKind → Int
  | .NONE => 0
  | .INSTR => 1
  | .TABLE256 => 2
  | .TABLE16 => 3
  | .TABLE8E => 4
  | .TABLE_PREFIX => 5
  | .TABLE_VEX => 6
  | .TABLE_ROOT => -1

/-- `TrieEntry.TABLE_LENGTH` (0 for the kinds absent from the Python dict,
which are never passed to `TrieEntry.table`). -/
def EntryKind.tableLength : EntryKind → Nat
  | .TABLE256 => 256
  | .TABLE16 => 16
  | .TABLE8E => 8
  | .TABLE_PREFIX => 4
  | .TABLE_VEX => 4
  | .TABLE_ROOT => 8
  | _ => 0

/-- The Python `descidx` field holds `()` for freshly created tables, `None`
for tables that `_update_table` has rewritten, and an `int` for INSTR
leaves. -/
inductive DescIdx where
  | emptyTup
  | pyNone
  | idx (n : Nat)
  deriving Repr, DecidableEq

/-- `TrieEntry`: node kind, child slots (`None` or a node name), and the
descriptor index. -/
structure TrieEntry where
  kind : EntryKind
  items : List (Option String)
  descidx : DescIdx
  deriving Repr, DecidableEq

/-- `TrieEntry.table`. -/
def TrieEntry.table (k : EntryKind) : TrieEntry :=
  ⟨k, List.replicate k.tableLength none, .emptyTup⟩

/-- `TrieEntry.instr`. -/
def TrieEntry.instr (n : Nat) : TrieEntry :=
  ⟨.INSTR, [], .idx n⟩

/-- Python `dict` lookup on an insertion-ordered association list. -/
def pyGet {α β : Type} [DecidableEq α] : List (α × β) → α → Option β
  | [], _ => none
  | (k, v) :: rest, key => if k = key then some v else pyGet rest key

/-- Python `del d[k]` (removes the unique binding for `k`). -/
def pyDel {α β : Type} [DecidableEq α] : List (α × β) → α → List (α × β)
  | [], _ => []
  | (k, v) :: rest, key => if k = key then rest else (k, v) :: pyDel rest key

/-- Python `d[k] = v`: update in place if present, otherwise append. -/
def pySet {α β : Type} [DecidableEq α] : List (α × β) → α → β → List (α × β)
  | [], key, v => [(key, v)]
  | (k, w) :: rest, key, v => if k = key then (k, v) :: rest else (k, w) :: pySet rest key v

/-- `parents[child].add(name)`: the per-child parent sets are modelled as
insertion-ordered duplicate-free lists. -/
def parentsAdd (ps : List (Option String × List String)) (child : Option String)
    (name : String) : List (Option String × List String) :=
  match pyGet ps child with
  | some s => if name ∈ s then ps else pySet ps child (s ++ [name])
  | none => ps ++ [(child, [name])]

/-- The initial `parents` map of `Table.deduplicate`. -/
def buildParents (data : List (String × TrieEntry)) : List (Option String × List String) :=
  data.foldl (fun ps p => p.2.items.foldl (fun acc it => parentsAdd acc it p.1) ps) []

/-- Errors of the table passes: `keyError` models a Python `KeyError` /
`IndexError`; `fuelExhausted` cannot occur for the fuel `deduplicate`
supplies (`dedupGo_fuel`). -/
inductive DErr where
  | keyError
  | fuelExhausted
  deriving Repr, DecidableEq

/-- First phase of one `deduplicate` round: scan the queue, record synonyms
and delete duplicates (`self.data[name]` raises for names already deleted in
an earlier round). -/
def dedupPhase1 : List String → List (String × TrieEntry) → List (TrieEntry × String) →
    List (String × String) →
    Except DErr (List (String × TrieEntry) × List (TrieEntry × String) × List (String × String))
  | [], data, entries, syn => .ok (data, entries, syn)
  | n :: q, data, entries, syn =>
    match pyGet data n with
    | none => .error .keyError
    | some e =>
      match pyGet entries e with
      | some c => dedupPhase1 q (pyDel data n) entries (syn ++ [(n, c)])
      | none => dedupPhase1 q data (entries ++ [(e, n)]) syn

/-- `queue = set.union(set(), *(parents[n] for n in synonyms))`, enumerated in
synonym order then parent-set insertion order (Python iterates this `set` of
strings in an unspecified hash order; the algorithm's claims proved below do
not depend on the order chosen). -/
def dedupQueue (syn : List (String × String))
    (ps : List (Option String × List String)) : List String :=
  ((syn.map (fun p => (pyGet ps (some p.1)).getD [])).flatten).foldl
    (fun acc n => if n ∈ acc then acc else acc ++ [n]) []

/-- Second phase of a round: rewrite the items of every parent of a renamed
node and extend the parent map. -/
def dedupPhase2 : List String → List (String × String) → List (String × TrieEntry) →
    List (Option String × List String) →
    Except DErr (List (String × TrieEntry) × List (Option String × List String))
  | [], _, data, ps => .ok (data, ps)
  | n :: q, syn, data, ps =>
    match pyGet data n with
    | none => .error .keyError
    | some e =>
      let items := e.items.map (fun it => match it with
        | none => none
        | some v => some ((pyGet syn v).getD v))
      let data' := pySet data n ⟨e.kind, items, e.descidx⟩
      let ps' := items.foldl (fun acc it => parentsAdd acc it n) ps
      dedupPhase2 q syn data' ps'

/-- The `while queue:` loop of `Table.deduplicate`.  A round with a non-empty
synonym map strictly shrinks `data`, so the fuel `data.length + 1` always
suffices (`dedupGo_fuel`). -/
def dedupGo : Nat → List String → List (String × TrieEntry) →
    List (Option String × List String) → List (TrieEntry × String) →
    Except DErr (List (String × TrieEntry))
  | _, [], data, _, _ => .ok data
  | 0, _ :: _, _, _, _ => .error .fuelExhausted
  | fuel + 1, q, data, ps, entries => do
    let (data1, entries1, syn) ← dedupPhase1 q data entries []
    match syn with
    | [] => .ok data1
    | _ :: _ =>
      let q' := dedupQueue syn ps
      let (data2, ps2) ← dedupPhase2 q' syn data1 ps
      dedupGo fuel q' data2 ps2 entries1

/-- `Table.deduplicate` on the node map. -/
def dedupData (data : List (String × TrieEntry)) : Except DErr (List (String × TrieEntry)) :=
  dedupGo (data.length + 1) (data.map (·.1)) data (buildParents data) []

/-- The mutable `Table` state used by the claims: the node map, the root
names, and the interned descriptor list. -/
structure TableState where
  data : List (String × TrieEntry)
  roots : List String
  descs : List (String × Nat × Nat × Nat) := []
  deriving Repr, DecidableEq

/-- `Table.__init__(root_count)`. -/
def mkTable (rootCount : Nat) : TableState :=
  { data := (List.range rootCount).map
      (fun i => ("root" ++ toString i, TrieEntry.table .TABLE_ROOT)),
    roots := (List.range rootCount).map (fun i => "root" ++ toString i) }

/-- `Table.deduplicate` on a table state. -/
def TableState.deduplicate (st : TableState) : Except DErr TableState := do
  let d ← dedupData st.data
  return { st with data := d }

/-! ### Layout and compile -/

inductive TErr where
  | maxTableSize
  | badDescIdx
  | keyError
  | emptyTable
  deriving Repr, DecidableEq

/-- `(len + 3) & ~3` (4-word alignment; on naturals this is `(n+3)/4*4`). -/
def alignLen (n : Nat) : Nat := (n + 3) / 4 * 4

/-- `Table.calc_offsets`: INSTR nodes get `descidx << 2` (a non-`int`
`descidx` raises a `TypeError`), other nodes the running word offset; the
size check `current >= 0x8000` runs after the loop.  Node annotations (debug
strings) are omitted. -/
def calcOffsetsGo : List (String × TrieEntry) → Nat → List (String × Nat) →
    Except TErr (List (String × Nat) × Nat)
  | [], cur, acc => if cur ≥ 0x8000 then .error .maxTableSize else .ok (acc, cur)
  | (n, e) :: rest, cur, acc =>
    if e.kind = .INSTR then
      match e.descidx with
      | .idx i => calcOffsetsGo rest cur (acc ++ [(n, i <<< 2)])
      | _ => .error .badDescIdx
    else
      calcOffsetsGo rest (cur + alignLen e.items.length) (acc ++ [(n, cur)])

def calcOffsets (data : List (String × TrieEntry)) :
    Except TErr (List (String × Nat) × Nat) :=
  calcOffsetsGo data 0 []

/-- Python `a | b` for a non-negative left operand and an arbitrary `int`
right operand (two's complement: `a | negSucc m = negSucc (m & ~a)`,
and `m & ~a = m - (m & a)`). -/
def pyOrNI (a : Nat) (b : Int) : Int :=
  match b with
  | .ofNat m => .ofNat (a ||| m)
  | .negSucc m => .negSucc (m - (m &&& a))

/-- `Table._encode_item`: `(offsets[name] << 1) | data[name].kind.value`. -/
def encodeItem (offs : List (String × Nat)) (data : List (String × TrieEntry))
    (name : String) : Option Int := do
  let off ← pyGet offs name
  let e ← pyGet data name
  return pyOrNI (off <<< 1) e.kind.value

/-- Sorted insertion by offset (`sorted` of `(off, entry)` pairs; offsets of
distinct placed nodes are distinct, so comparison never reaches the entry). -/
def sortInsOff (x : Nat × TrieEntry) : List (Nat × TrieEntry) → List (Nat × TrieEntry)
  | [] => [x]
  | y :: ys => if y.1 ≤ x.1 then y :: sortInsOff x ys else x :: y :: ys

/-- Write one node's child links into the word array (`data[i] = ...`
raises `IndexError` out of range). -/
def fillNode (offs : List (String × Nat)) (data : List (String × TrieEntry)) :
    List Int → Nat → List (Option String) → Except TErr (List Int)
  | arr, _, [] => .ok arr
  | arr, i, none :: rest => fillNode offs data arr (i + 1) rest
  | arr, i, some child :: rest =>
    match encodeItem offs data child with
    | none => .error .keyError
    | some w =>
      if i < arr.length then fillNode offs data (arr.set i w) (i + 1) rest
      else .error .keyError

/-- `Table.compile`: offsets, the flat word array, the root offsets and the
descriptor list (annotation strings and the printed statistics are debug
output and omitted). -/
def TableState.compile (st : TableState) :
    Except TErr (List Int × List Nat × List (String × Nat × Nat × Nat)) := do
  let (offs, _cur) ← calcOffsets st.data
  let pairs ← offs.foldlM (fun acc p => do
      match pyGet st.data p.1 with
      | none => throw .keyError
      | some e => pure (if e.items.isEmpty then acc else acc ++ [(p.2, e)]))
    ([] : List (Nat × TrieEntry))
  let ordered := pairs.foldl (fun acc p => sortInsOff p acc) []
  match ordered.getLast? with
  | none => throw .emptyTable
  | some lastP => do
    let size := lastP.1 + lastP.2.items.length
    let arr ← ordered.foldlM (fun arr p => fillNode offs st.data arr p.1 p.2.items)
      (List.replicate size (0 : Int))
    let rootOffs ← st.roots.mapM (fun rk =>
      match pyGet offs rk with
      | some o => pure o
      | none => throw (TErr.keyError))
    return (arr, rootOffs, st.descs)

/-! ### The opcode parser and `for_trie` -/

/-- Legacy prefix selector (`P66` is the string `"66"` in the source). -/
inductive Legacy where
  | NP | P66 | F2 | F3 | NFx
  deriving Repr, DecidableEq

/-- Value of a `W`/`L` attribute: `"0"`, `"1"` or `"IG"`. -/
inductive WLVal where
  | v0 | v1 | ig
  deriving Repr, DecidableEq

/-- ModR/M mode class, the strings `"r"`, `"m"`, `"rm"` in the source. -/
inductive ModeCls where
  | r | m | rm
  deriving Repr, DecidableEq

/-- The parsed `Opcode` record.  `pfx` is the source's `prefix` attribute. -/
structure Opcode where
  pfx : Option Legacy
  escape : Nat
  opc : Nat
  extended : Bool
  modreg : Option (Option Nat × ModeCls)
  opcext : Option Nat
  vex : Bool
  vexl : Option WLVal
  rexw : Option WLVal
  deriving Repr, DecidableEq

/-- Lowercase hex digit test (`[0-9a-f]`, the regex is case-sensitive). -/
def isHexLower (c : Char) : Bool :=
  ('0' ≤ c && c ≤ '9') || ('a' ≤ c && c ≤ 'f')

def hexVal (c : Char) : Nat :=
  if c ≤ '9' then c.toNat - '0'.toNat else c.toNat - 'a'.toNat + 10

/-- Strip a literal from the head of the char list. -/
def dropLit : List Char → List Char → Option (List Char)
  | [], cs => some cs
  | _ :: _, [] => none
  | l :: ls, c :: cs => if c = l then dropLit ls cs else none

def firstSome {α : Type} : List (Option α) → Option α
  | [] => none
  | some a :: _ => some a
  | none :: os => firstSome os

/-- `/(0-7|r|m|0-7r|0-7m)` followed by end-of-string, with the source's
post-processing: a leading `r`/`m` means a register wildcard, a digit with no
mode suffix means mode class `rm`. -/
def parseModreg (cs : List Char) : Option (Option Nat × ModeCls) :=
  match cs with
  | [c] =>
    if '0' ≤ c ∧ c ≤ '7' then some (some (c.toNat - '0'.toNat), .rm)
    else if c = 'r' then some (none, .r)
    else if c = 'm' then some (none, .m)
    else none
  | [c, d] =>
    if ('0' ≤ c ∧ c ≤ '7') ∧ (d = 'r' ∨ d = 'm') then
      some (some (c.toNat - '0'.toNat), if d = 'r' then ModeCls.r else ModeCls.m)
    else none
  | _ => none

/-- The optional suffix after the opcode byte: nothing, `+`, `/modreg`, or a
`c0..ff` extension byte, anchored at end-of-string. -/
def parseSuffix (cs : List Char) :
    Option (Bool × Option (Option Nat × ModeCls) × Option Nat) :=
  match cs with
  | [] => some (false, none, none)
  | ['+'] => some (true, none, none)
  | '/' :: rest => (parseModreg rest).map (fun m => (false, some m, none))
  | [c1, c2] =>
    if ('c' ≤ c1 ∧ c1 ≤ 'f') ∧ isHexLower c2 = true then
      some (false, none, some (hexVal c1 * 16 + hexVal c2))
    else none
  | _ => none

/-- Two lowercase hex digits. -/
def parseHex2 : List Char → Option (Nat × List Char)
  | c1 :: c2 :: rest =>
    if isHexLower c1 && isHexLower c2 then some (hexVal c1 * 16 + hexVal c2, rest)
    else none
  | _ => none

/-- The escape alternatives in regex alternation order, with their index in
`["", "0f", "0f38", "0f3a"]`. -/
def escapeAlts : List (String × Nat) := [("0f38", 2), ("0f3a", 3), ("0f", 1), ("", 0)]

/-- The part of the pattern after the optional prefixes group: escape
alternatives (with regex backtracking: first alternative whose continuation
matches), opcode byte, optional suffix, end of string. -/
def tailParse (cs : List Char) :
    Option (Nat × Nat × Bool × Option (Option Nat × ModeCls) × Option Nat) :=
  firstSome (escapeAlts.map (fun e =>
    match dropLit e.1.toList cs with
    | none => none
    | some r1 =>
      match parseHex2 r1 with
      | none => none
      | some (opcv, r2) =>
        match parseSuffix r2 with
        | none => none
        | some (ext, mreg, ocx) => some (e.2, opcv, ext, mreg, ocx)))

/-- `W(0|1|IG).` or `L(0|1|IG).`. -/
def parseWL (tag : Char) (cs : List Char) : Option (WLVal × List Char) :=
  match cs with
  | c :: rest =>
    if c = tag then
      match rest with
      | '0' :: '.' :: r => some (.v0, r)
      | '1' :: '.' :: r => some (.v1, r)
      | 'I' :: 'G' :: '.' :: r => some (.ig, r)
      | _ => none
    else none
  | [] => none

/-- Choices for a greedy optional group: the matched way first, then the
skipped way. -/
def optChoices {α : Type} (p : Option (α × List Char)) (cs : List Char) :
    List (Option α × List Char) :=
  (match p with | some (a, r) => [(some a, r)] | none => []) ++ [(none, cs)]

def legacyAlts : List (String × Legacy) :=
  [("NP", .NP), ("66", .P66), ("F2", .F2), ("F3", .F3), ("NFx", .NFx)]

/-- `(NP|66|F2|F3|NFx)\.`. -/
def parseLegacy (cs : List Char) : Option (Legacy × List Char) :=
  firstSome (legacyAlts.map (fun a =>
    (dropLit (a.1 ++ ".").toList cs).map (fun r => (a.2, r))))

def buildOpcode (vex : Bool) (leg : Option Legacy) (w l : Option WLVal)
    (t : Nat × Nat × Bool × Option (Option Nat × ModeCls) × Option Nat) : Opcode :=
  { pfx := leg, escape := t.1, opc := t.2.1, extended := t.2.2.1,
    modreg := t.2.2.2.1, opcext := t.2.2.2.2, vex := vex, vexl := l, rexw := w }

/-- The prefixes group matched: optional `VEX.`, a legacy prefix with dot,
optional `W...`, optional `L...`, then the tail — exploring the group's
match alternatives in the regex engine's greedy order. -/
def parseWithPrefixes (cs : List Char) : Option Opcode :=
  let vexChoices : List (Bool × List Char) :=
    (match dropLit "VEX.".toList cs with
     | some r => [(true, r)]
     | none => []) ++ [(false, cs)]
  firstSome (vexChoices.map (fun vc =>
    match parseLegacy vc.2 with
    | none => none
    | some (leg, r1) =>
      firstSome ((optChoices (parseWL 'W' r1) r1).map (fun wc =>
        firstSome ((optChoices (parseWL 'L' wc.2) wc.2).map (fun lc =>
          (tailParse lc.2).map (buildOpcode vc.1 (some leg) wc.1 lc.1)))))))

/-- `Opcode.parse`: the regex `opcode_regex` applied to the whole string; the
prefixes group is greedy, so the group-matched alternatives are tried before
the group-skipped one. -/
def Opcode.parse (s : String) : Option Opcode :=
  let cs := s.toList
  match parseWithPrefixes cs with
  | some o => some o
  | none => (tailParse cs).map (buildOpcode false none none none)

/-- `["NP", "66", "F3", "F2"].index(prefix)` (only called for non-NFx). -/
def prefixIdx : Legacy → Nat
  | .NP => 0
  | .P66 => 1
  | .F3 => 2
  | .F2 => 3
  | .NFx => 4

/-- The stage list that `Opcode.for_trie` builds before taking the Cartesian
product: each stage is a table kind with its alternative indices. -/
def Opcode.stages (o : Opcode) : List (EntryKind × List Nat) :=
  [(.TABLE_ROOT, [o.escape ||| (if o.vex then 4 else 0)])]
  ++ [(.TABLE256, if o.extended then (List.range 8).map (fun i => o.opc + i) else [o.opc])]
  ++ (match o.pfx with
      | none => []
      | some .NFx => [(.TABLE_PREFIX, [0, 1])]
      | some p => [(.TABLE_PREFIX, [prefixIdx p])])
  ++ (match o.opcext with
      | none => []
      | some x => [(.TABLE16, [((x - 0xc0) >>> 3) ||| 8]), (.TABLE8E, [x &&& 7])])
  ++ (match o.modreg with
      | none => []
      | some mr =>
        let modl : List Nat := match mr.2 with | .m => [0] | .r => [8] | .rm => [0, 8]
        let regl : List Nat := match mr.1 with | some d => [d] | none => List.range 8
        [(.TABLE16, modl.flatMap (fun x => regl.map (fun y => x + y)))])
  ++ (if o.vexl = some .v0 ∨ o.vexl = some .v1 ∨ o.rexw = some .v0 ∨ o.rexw = some .v1 then
        let rexwl : List Nat := match o.rexw with
          | some .v0 => [0] | some .v1 => [1] | _ => [0, 1]
        let vexll : List Nat := match o.vexl with
          | some .v0 => [0] | some .v1 => [2] | _ => [0, 2]
        [(.TABLE_VEX, rexwl.flatMap (fun x => vexll.map (fun y => x + y)))]
      else [])

/-- `itertools.product`, rightmost factor fastest. -/
def pyProduct {α : Type} : List (List α) → List (List α)
  | [] => [[]]
  | l :: ls => l.flatMap (fun x => (pyProduct ls).map (fun r => x :: r))

/-- `Opcode.for_trie`: the Cartesian product of the stage alternatives,
re-zipped with the stage kinds. -/
def Opcode.for_trie (o : Opcode) : List (List (EntryKind × Nat)) :=
  let st := o.stages
  (pyProduct (st.map (·.2))).map (fun vals => List.zip (st.map (·.1)) vals)

/-! ### The encoder table (`encode_table`) -/

/-- One encoder-table variant `(encoding, imm_size, tys, opc_str)`. -/
structure EVariant where
  enc : String
  immsz : Int
  tys : Int
  opc : String
  deriving Repr, DecidableEq

/-- Errors of `encode_table` (Python `IndexError` / `KeyError` /
`ValueError on max of empty set` / `Exception` from `abssize`). -/
inductive VErr where
  | escapeRange
  | unknownEncoding
  | badImmControl
  | indexError
  | unspecifiedSize
  | maxEmpty
  deriving Repr, DecidableEq

/-- `OpKind.abssize`: resolve `SZ_OP`/`SZ_VEC` against the given context
sizes; an unresolved size raises. -/
def OpKind.abssizeE (op : OpKind) (opsz vecsz : Option Int) : Except VErr Int :=
  let res := if op.size = OpKind.SZ_OP then opsz
             else if op.size = OpKind.SZ_VEC then vecsz
             else some op.size
  match res with
  | some v => .ok v
  | none => .error .unspecifiedSize

def hexDigitChar (n : Nat) : Char :=
  if n < 10 then Char.ofNat ('0'.toNat + n) else Char.ofNat ('a'.toNat + n - 10)

def hexDigits (n : Nat) : List Char :=
  if h : n = 0 then [] else hexDigits (n / 16) ++ [hexDigitChar (n % 16)]
decreasing_by exact Nat.div_lt_self (Nat.pos_of_ne_zero h) (by omega)

/-- Python `hex(n)` for a non-negative `n`. -/
def pyHex (n : Nat) : String :=
  "0x" ++ (if n = 0 then "0" else String.mk (hexDigits n))

/-- `["","|OPC_0F","|OPC_0F38","|OPC_0F3A"][escape]`. -/
def escFlagStr : Nat → Except VErr String
  | 0 => .ok ""
  | 1 => .ok "|OPC_0F"
  | 2 => .ok "|OPC_0F38"
  | 3 => .ok "|OPC_0F3A"
  | _ => .error .escapeRange

def modeStr : ModeCls → String
  | .r => "r"
  | .m => "m"
  | .rm => "rm"

/-- `{"imm": 0, "SEG": 3, "FPU": 4, "MMX": 5, "XMM": 6, "BND": 8, "CR": 9,
"DR": 10}.get(kind, -1)`. -/
def tysLookup (kind : String) : Int :=
  match kind with
  | "imm" => 0 | "SEG" => 3 | "FPU" => 4 | "MMX" => 5 | "XMM" => 6
  | "BND" => 8 | "CR" => 9 | "DR" => 10
  | _ => -1

/-- `f"_{size}"[name[-1] not in "0123456789":]`: keep the underscore only when
the name currently ends in a digit. -/
def sizeSuffix (nm : String) (sz : Nat) : String :=
  match nm.toList.getLast? with
  | some c => if '0' ≤ c ∧ c ≤ '9' then "_" ++ toString sz else toString sz
  | none => toString sz

/-- The immediate size of one variant: `ENTER` is special-cased to 3,
`IMM_8` forces 1, otherwise `min(max_imm, imm_opsize)` with `max_imm` 4
(8 for `MOVABS`). -/
def quadImmSize (d : InstrDesc) (enc : InstrFlags) (opsize : Nat) : Except VErr Int :=
  if enc.imm_control ≥ 4 then
    if d.mnemonic = "ENTER" then pure 3
    else if d.flags.contains "IMM_8" then pure 1
    else do
      let maxImm : Int := if d.mnemonic ≠ "MOVABS" then 4 else 8
      let immOp ← match d.operands[enc.imm_idx ^^^ 3]? with
        | some op => Except.ok op
        | none => Except.error VErr.indexError
      let sz ← immOp.abssizeE (some ((opsize : Int) / 8)) none
      pure (min maxImm sz)
  else pure 0

/-- The packed per-operand type nibbles of one variant. -/
def quadTys (d : InstrDesc) (opsize : Nat) (ots : List Char) : Except VErr Int := do
  let tys ← (List.zip ots d.operands).mapM (fun p => do
      if p.1 = 'm' then pure (0xf : Int)
      else if p.2.kind = "GP" then
        if d.mnemonic = "MOVSX" ∨ d.mnemonic = "MOVZX" ∨ opsize = 8 then do
          let a ← p.2.abssizeE (some ((opsize : Int) / 8)) none
          pure (if a = 1 then (2 : Int) else 1)
        else pure 1
      else pure (tysLookup p.2.kind))
  pure ((tys.enum.map (fun p => p.2 * (16 ^ p.1 : Int))).sum)

/-- The `opc` expression string of one variant. -/
def quadOpcS (d : InstrDesc) (opsize : Nat) (opcI : Nat) (opcFlags pf2 : String) : String :=
  let opcS0 := pyHex opcI ++ opcFlags ++ pf2
  let opcS1 := if opsize = 16 then opcS0 ++ "|OPC_66" else opcS0
  if opsize = 64 ∧ ¬d.flags.contains "DEF64" ∧ ¬d.flags.contains "FORCE64"
    then opcS1 ++ "|OPC_REXW" else opcS1

/-- The constructed mnemonic name of one variant. -/
def quadName (d : InstrDesc) (sep prependOp prependVec : Bool) (opsize vecsize : Nat)
    (pf1 : String) (ots : List Char) : Except VErr String := do
  let mnemName := if d.mnemonic = "MOVABS" then "MOV"
    else if d.mnemonic = "XCHG_NOP" then "XCHG" else d.mnemonic
  let name0 := "FE_" ++ pf1 ++ mnemName
  let name1 := if prependOp ∧ ¬(d.flags.contains "DEF64" ∧ opsize = 64) then
      name0 ++ sizeSuffix name0 opsize
    else name0
  let name2 := if prependVec then name1 ++ sizeSuffix name1 vecsize else name1
  (List.zip ots d.operands).foldlM (fun nm p => do
      let nm := if p.1 = 'o' then nm else nm ++ String.mk [p.1]
      if sep then do
        let a ← p.2.abssizeE (some ((opsize : Int) / 8)) (some ((vecsize : Int) / 8))
        pure (nm ++ toString (a * 8))
      else pure nm) name2

/-- The per-quadruple body of the main loop of `encode_table`: returns `none`
for the `continue` on a LOCK prefix with a non-memory first operand. -/
def variantOfQuad (d : InstrDesc) (enc : InstrFlags) (sep prependOp prependVec : Bool)
    (opcI : Nat) (opcFlags : String)
    (q : Nat × Nat × (String × String) × List Char) :
    Except VErr (Option (String × EVariant)) := do
  let skip ← if q.2.2.1.2 = "|OPC_LOCK" then
      match q.2.2.2.head? with
      | none => Except.error VErr.indexError
      | some c => Except.ok (c != 'm')
    else Except.ok false
  if skip then
    return none
  let immSize ← quadImmSize d enc q.1
  let tysI ← quadTys d q.1 q.2.2.2
  let opcS := quadOpcS d q.1 opcI opcFlags q.2.2.1.2
  let name3 ← quadName d sep prependOp prependVec q.1 q.2.1 q.2.2.1.1 q.2.2.2
  return some (name3, ⟨d.encoding, immSize, tysI, opcS⟩)

/-- The full opcode integer: the base byte with the extension byte or the
fixed-`/r` value shifted into bits 8.. . -/
def vOpcI (o : Opcode) : Nat :=
  let opcI1 := match o.opcext with
    | some x => o.opc ||| (x <<< 8)
    | none => o.opc
  match o.modreg with
  | some (some r, _) => opcI1 ||| (r <<< 8)
  | _ => opcI1

/-- The operand/vector size lists (`opsizes`, `vecsizes`) together with the
accumulated `opc_flags` string, from the flag- and attribute-driven filtering
chain of `encode_table` (between the escape lookup and the ENC_SEPSZ flag). -/
def vSzsFlags (o : Opcode) (d : InstrDesc) (escS : String) :
    (List Nat × List Nat) × String :=
  let opsizes0 : List Nat := if d.flags.contains "SIZE_8" then [8] else [16, 32, 64]
  let vecsizes0 : List Nat := if o.vex then [128, 256] else [128]
  let opcFlags1 := if o.vex then escS ++ "|OPC_VEX" else escS
  let opcFlags2 := match o.pfx with
    | some .P66 => opcFlags1 ++ "|OPC_66"
    | some .F2 => opcFlags1 ++ "|OPC_F2"
    | some .F3 => opcFlags1 ++ "|OPC_F3"
    | _ => opcFlags1
  let opsizes1 := match o.pfx with
    | some p => if ¬d.flags.contains "USE66" ∧ p ≠ .NFx then opsizes0.filter (· ≠ 16)
                else opsizes0
    | none => opsizes0
  let vl := match o.vexl with
    | some .ig => (([0] : List Nat), opcFlags2)
    | some .v0 => (vecsizes0.filter (· ≠ 256), opcFlags2)
    | some .v1 => (vecsizes0.filter (· ≠ 128), opcFlags2 ++ "|OPC_VEXL")
    | none => (vecsizes0, opcFlags2)
  let rw := match o.rexw with
    | some .ig => (([0] : List Nat), vl.2)
    | some .v0 => (opsizes1.filter (· ≠ 64), vl.2)
    | some .v1 => (opsizes1.filter (· ≠ 32), vl.2 ++ "|OPC_REXW")
    | none => (opsizes1, vl.2)
  let opsizes3 := if d.flags.contains "DEF64" then rw.1.filter (· ≠ 32) else rw.1
  let opsizes4 := if ¬d.flags.contains "INSTR_WIDTH" ∧
      d.operands.all (fun op => op.size ≠ OpKind.SZ_OP) then [0] else opsizes3
  let vecsizes2 := if ¬d.flags.contains "VSIB" ∧
      d.operands.all (fun op => op.size ≠ OpKind.SZ_VEC) then [0] else vl.1
  let szs := if d.flags.contains "ENC_NOSZ" then (([0] : List Nat), ([0] : List Nat))
    else (opsizes4, vecsizes2)
  (szs, rw.2)

/-- The per-slot operand-type letters (`""`, `"r"`, `"rm"`, `"m"`, one of
`" iariioo"`), in slot order, from the encoding's operand indices. -/
def vOts (o : Opcode) (enc : InstrFlags) : Except VErr (List String) :=
  let ot0 : List String := ["", "", "", ""]
  let ot1 := if enc.modrm_idx ≠ 0 then
      ot0.set (enc.modrm_idx ^^^ 3)
        (match o.modreg with | some mr => modeStr mr.2 | none => "rm")
    else ot0
  let ot2 := if enc.modreg_idx ≠ 0 then ot1.set (enc.modreg_idx ^^^ 3) "r" else ot1
  let ot3 := if enc.vexreg_idx ≠ 0 then ot2.set (enc.vexreg_idx ^^^ 3) "r" else ot2
  let ot4 := if enc.zeroreg_idx ≠ 0 then ot3.set (enc.zeroreg_idx ^^^ 3) "r" else ot3
  if enc.imm_control ≠ 0 then
    match (" iariioo".toList)[enc.imm_control]? with
    | some c => Except.ok (ot4.set (enc.imm_idx ^^^ 3) (String.mk [c]))
    | none => Except.error VErr.badImmControl
  else Except.ok ot4

/-- The mnemonic-prefix/opcode-flag pairs driven by LOCK/REP/REPCC flags. -/
def vPrefixes (d : InstrDesc) : List (String × String) :=
  [("", "")]
  ++ (if d.flags.contains "LOCK" then [("LOCK_", "|OPC_LOCK")] else [])
  ++ (if d.flags.contains "ENC_REP" then [("REP_", "|OPC_F3")] else [])
  ++ (if d.flags.contains "ENC_REPCC" then [("REPNZ_", "|OPC_F2"), ("REPZ_", "|OPC_F3")] else [])

/-- The quadruple list `(opsize, vecsize, prefix pair, operand letters)` the
nested loops of `encode_table` iterate, in loop order. -/
def vQuads (opsizes vecsizes : List Nat) (prefixes : List (String × String))
    (otsList : List (List Char)) : List (Nat × Nat × (String × String) × List Char) :=
  opsizes.flatMap (fun os => vecsizes.flatMap (fun vs =>
    prefixes.flatMap (fun pf => otsList.map (fun ots => (os, vs, pf, ots)))))

/-- One loop iteration: append the quadruple's variant, or keep the
accumulator on the LOCK-prefix `continue`. -/
def vStep (d : InstrDesc) (enc : InstrFlags) (sep po pv : Bool) (opcI : Nat)
    (fl : String) (acc : List (String × EVariant))
    (q : Nat × Nat × (String × String) × List Char) :
    Except VErr (List (String × EVariant)) := do
  match ← variantOfQuad d enc sep po pv opcI fl q with
  | none => pure acc
  | some nv => pure (acc ++ [nv])

/-- One entry's contribution to the encoder table: the list of
`(mnemonic name, variant)` pairs the `mnemonics[name].append(...)` calls of
`encode_table` produce, in append order.  The Python `opsizes`/`vecsizes`
sets are modelled as lists in a fixed construction order (CPython iterates
these small-int sets in an unspecified bucket order; the order only affects
which structurally-equal variant a later dedup keeps first). -/
def variantsOf (o : Opcode) (d : InstrDesc) : Except VErr (List (String × EVariant)) := do
  let escS ← escFlagStr o.escape
  let sf := vSzsFlags o d escS
  let sep := d.flags.contains "ENC_SEPSZ"
  let maxOp ← match sf.1.1.max? with
    | some m => Except.ok m
    | none => Except.error VErr.maxEmpty
  let prependOp1 : Bool := decide (maxOp > 0) && !sep
  let prependVec : Bool ← if o.vex then
      match sf.1.2.max? with
      | some m => Except.ok (decide (m > 0) && !sep)
      | none => Except.error VErr.maxEmpty
    else Except.ok false
  let fin := if d.flags.contains "FORCE64" then (([64] : List Nat), false)
    else (sf.1.1, prependOp1)
  let enc ← match ENCODINGS d.encoding with
    | some e => Except.ok e
    | none => Except.error VErr.unknownEncoding
  let ot5 ← vOts o enc
  let otsList := pyProduct ((ot5.filter (· ≠ "")).map (·.toList))
  let quads := vQuads fin.1 sf.1.2 (vPrefixes d) otsList
  quads.foldlM (vStep d enc sep fin.2 prependVec (vOpcI o) sf.2) []

/-- `mnemonics[name].append(variant)` on the insertion-ordered group map. -/
def appendGroup (gs : List (String × List EVariant)) (name : String) (v : EVariant) :
    List (String × List EVariant) :=
  match pyGet gs name with
  | some vs => pySet gs name (vs ++ [v])
  | none => gs ++ [(name, [v])]

/-- The seeded NOP variant `("NP", 0, 0, "0x90")`. -/
def nopSeed : EVariant := ⟨"NP", 0, 0, "0x90"⟩

/-- The skip condition of `encode_table`:
`desc.mnemonic[:9] == "RESERVED_" or "ONLY32" in desc.flags`. -/
def skipEntry (d : InstrDesc) : Bool :=
  (d.mnemonic.toList.take 9 = "RESERVED_".toList) || d.flags.contains "ONLY32"

/-- One entry's effect on the group map: skipped entries (`RESERVED_`
mnemonics and `ONLY32` descriptors) contribute nothing. -/
def buildStep (gs : List (String × List EVariant)) (e : Opcode × InstrDesc) :
    Except VErr (List (String × List EVariant)) :=
  if skipEntry e.2 then pure gs
  else do
    let vs ← variantsOf e.1 e.2
    pure (vs.foldl (fun gs2 nv => appendGroup gs2 nv.1 nv.2) gs)

/-- The group map built by the main loop of `encode_table`, seeded with
`FE_NOP`. -/
def buildGroups (entries : List (Opcode × InstrDesc)) :
    Except VErr (List (String × List EVariant)) :=
  entries.foldlM buildStep [("FE_NOP", [nopSeed])]

/-- Per-group deduplication by `(encoding, imm_size, tys)`, keeping the first
occurrence. -/
def variantDedup (vs : List EVariant) : List EVariant :=
  vs.foldl (fun acc v =>
    if acc.any (fun x => x.enc = v.enc && x.immsz = v.immsz && x.tys = v.tys) then acc
    else acc ++ [v]) []

def encPrio : List String := ["O", "OA", "OI", "IA", "M", "MI", "MR", "RM"]

def prioKeyGo : List String → String → Nat → Nat
  | [], _, _ => 0
  | p :: ps, e, i => if p = e then i else prioKeyGo ps e (i + 1)

/-- The second sort-key component
`e[0] in enc_prio and enc_prio.index(e[0])`: the index for a listed encoding,
and Python `False` — which compares equal to `0` — otherwise. -/
def prioKey (e : String) : Nat := prioKeyGo encPrio e 0

/-- The sort key `(imm_size, encoding preference)`. -/
def vkey (v : EVariant) : Int × Nat := (v.immsz, prioKey v.enc)

def vkeyLe (a b : Int × Nat) : Bool :=
  decide (a.1 < b.1) || (decide (a.1 = b.1) && decide (a.2 ≤ b.2))

/-- Stable insertion for the sort by `vkey` (`list.sort` is stable; any two
stable sorts by the same key agree). -/
def sortIns (v : EVariant) : List EVariant → List EVariant
  | [] => [v]
  | y :: ys => if vkeyLe (vkey y) (vkey v) then y :: sortIns v ys else v :: y :: ys

def variantSort (vs : List EVariant) : List EVariant :=
  vs.foldl (fun acc v => sortIns v acc) []

/-- The per-group processing of `encode_table`: dedup then stable sort.  The
resulting list order is the emitted chain order (the first record carries the
group's mnemonic enum name, later ones synthetic names linked by `alt`; the
C-source text emission is template glue and omitted). -/
def processGroup (vs : List EVariant) : List EVariant :=
  variantSort (variantDedup vs)

/-- `encode_table`: the processed group map, keyed by constructed mnemonic
name, values in emitted chain order. -/
def encodeTable (entries : List (Opcode × InstrDesc)) :
    Except VErr (List (String × List EVariant)) := do
  let gs ← buildGroups entries
  return gs.map (fun g => (g.1, processGroup g.2))

/-! ### Concrete example states used by the claim theorems -/

/-- A table state whose trie is small but whose single leaf carries the
interned-descriptor index 0x2000 (the shape `root → TABLE256 node → leaf`
the builder produces; reaching index 0x2000 requires 8193 distinct
descriptors, which `calc_offsets` never checks). -/
def tblC3 : TableState :=
  { data := [("root0", ⟨.TABLE_ROOT, [some "n256"] ++ List.replicate 7 none, .emptyTup⟩),
             ("n256", ⟨.TABLE256,
               List.replicate 16 none ++ [some "leaf"] ++ List.replicate 239 none, .pyNone⟩),
             ("leaf", TrieEntry.instr 0x2000)],
    roots := ["root0"],
    descs := (List.range 0x2001).map (fun i => ("FDI_M" ++ toString i, i, 0, 0)) }

/-- The offsets `calc_offsets` assigns for `tblC3`. -/
def offsC3 : List (String × Nat) := [("root0", 0), ("n256", 8), ("leaf", 0x8000)]

/-- Descriptor with valid fixed sizes but a non-VEC operand 3
(`RVMR - XMM XMM XMM GP8 X`, i.e. operands XMM, XMM, XMM, GP8). -/
def descC6 : InstrDesc := ⟨"X", "RVMR", [⟨-2, "XMM"⟩, ⟨-2, "XMM"⟩, ⟨-2, "XMM"⟩, ⟨1, "GP"⟩], []⟩

/-- Descriptor `MI GP IMM8 - - F` used as the C5 witness. -/
def descC5 : InstrDesc := ⟨"F", "MI", [⟨-1, "GP"⟩, ⟨1, "imm"⟩], []⟩

/-! ## Theorems -/

/-- C2 helper: the deduplicated two-root table (root1 was removed as a
structural duplicate of root0). -/
theorem dedup_two_roots :
    dedupData (mkTable 2).data = .ok [("root0", TrieEntry.table .TABLE_ROOT)] := by
  decide

/-- C2: the claim says `deduplicate` never renames or deletes a root so that
`compile` can assign an offset to every root.  On the two-root table with no
opcodes installed, the roots are structurally equal; `deduplicate` deletes
`root1`, and `compile` then fails with a `KeyError` looking up its offset —
the code contradicts `compile`'s own unconditional root-offset lookup. -/
theorem spec_C2_root_deleted :
    (mkTable 2).deduplicate =
      .ok { data := [("root0", TrieEntry.table .TABLE_ROOT)],
            roots := ["root0", "root1"], descs := [] } ∧
    pyGet [("root0", TrieEntry.table .TABLE_ROOT)] "root1" = (none : Option TrieEntry) ∧
    ({ data := [("root0", TrieEntry.table .TABLE_ROOT)],
       roots := ["root0", "root1"], descs := [] } : TableState).compile =
      .error .keyError := by
  refine ⟨by decide, by decide, by rfl⟩

/-- C1 (counterexample): the spec's input `VEX.66.0f.WIG.LIG.58` does not even
match the opcode grammar — in `opcode_regex` the `W`/`L` attributes precede
the escape — so parsing it yields no opcode (and hence not 4 paths). -/
theorem spec_C1_counterexample : Opcode.parse "VEX.66.0f.WIG.LIG.58" = none := by
  decide

/-- C8 (counterexample): the spec's line starts with opcode string `NP.0f.10`,
but in `opcode_regex` the escape and opcode byte are contiguous (`0f10`), so
`NP.0f.10` fails to parse and the line produces no trie path at all. -/
theorem spec_C8_counterexample : Opcode.parse "NP.0f.10" = none := by
  decide

/-- C3 (counterexample): on `tblC3`, `calc_offsets` succeeds (264 words, well
under 0x8000) and `compile` succeeds, yet the INSTR link emitted for `leaf`
is `(0x8000 << 1) | 1 = 0x10001`: its synthesized offset `descidx << 2 =
0x8000` violates `offset < 0x8000`, and the link no longer fits in 16 bits. -/
theorem spec_C3_counterexample :
    calcOffsets tblC3.data = .ok (offsC3, 264) ∧
    encodeItem offsC3 tblC3.data "leaf" = some 0x10001 ∧
    (tblC3.compile.map (fun out => (out.1.getD 24 0, out.1.length, out.2.1))) =
      .ok (0x10001, 264, [0]) ∧
    ¬ (0x8000 : Nat) < 0x8000 ∧ ¬ (0x10001 : Int) < 0x10000 := by
  refine ⟨by rfl, by rfl, by rfl, by decide, by decide⟩

/-- C6 (counterexample): `descC6` has admissible fixed operand sizes
(`fixed = [1]`), yet `encode` still raises — for the non-VEC operand 3 — so
"raises a fatal error exactly when [the fixed-size condition holds]" is
false as stated. -/
theorem spec_C6_counterexample :
    InstrDesc.encodeFlags descC6 false = .error .invalidOp3Regty ∧
    InstrDesc.fixedSizes descC6 = some [1] ∧
    ¬ badFixed [1] := by
  refine ⟨by rfl, by rfl, by decide⟩

/-- The per-operand loop never changes `imm_control`, `size_fix1`,
`size_fix2`. -/
theorem setOpSize_core (r : InstrFlags) (i s : Nat) :
    (setOpSize r i s).imm_control = r.imm_control ∧
    (setOpSize r i s).size_fix1 = r.size_fix1 ∧
    (setOpSize r i s).size_fix2 = r.size_fix2 := by
  unfold setOpSize; split <;> exact ⟨rfl, rfl, rfl⟩

theorem setOpRegty_core (r : InstrFlags) (i s : Nat) :
    (setOpRegty r i s).imm_control = r.imm_control ∧
    (setOpRegty r i s).size_fix1 = r.size_fix1 ∧
    (setOpRegty r i s).size_fix2 = r.size_fix2 := by
  unfold setOpRegty; split <;> exact ⟨rfl, rfl, rfl⟩

theorem encodeOps_core (sizes : List Int) :
    ∀ (ops : List OpKind) (i : Nat) (r r' : InstrFlags),
      encodeOps sizes ops i r = .ok r' →
      r'.imm_control = r.imm_control ∧ r'.size_fix1 = r.size_fix1 ∧
      r'.size_fix2 = r.size_fix2 := by
  intro ops
  induction ops with
  | nil =>
    intro i r r' h
    simp only [encodeOps, Except.ok.injEq] at h
    subst h; exact ⟨rfl, rfl, rfl⟩
  | cons op rest ih =>
    intro i r r' h
    simp only [encodeOps, bind, Except.bind] at h
    cases hsz : OPKIND_SIZES op.size with
    | none => rw [hsz] at h; simp at h
    | some sz =>
      rw [hsz] at h
      dsimp only at h
      cases hix : listIndex sizes sz with
      | none => rw [hix] at h; simp at h
      | some szIdx =>
        rw [hix] at h
        dsimp only at h
        split at h
        · -- i < 3
          have h2 := ih (i + 1) _ r' h
          have hs := setOpSize_core r i szIdx
          have hr := setOpRegty_core (setOpSize r i szIdx) i (OPKIND_REGTYS op.kind)
          exact ⟨by rw [h2.1, hr.1, hs.1], by rw [h2.2.1, hr.2.1, hs.2.1],
                 by rw [h2.2.2, hr.2.2, hs.2.2]⟩
        · split at h
          · simp at h
          · have h2 := ih (i + 1) _ r' h
            have hs := setOpSize_core r i szIdx
            exact ⟨by rw [h2.1, hs.1], by rw [h2.2.1, hs.2.1], by rw [h2.2.2, hs.2.2]⟩

theorem encodeMisc_core (d : InstrDesc) (b : Bool) (r : InstrFlags) :
    (encodeMisc d b r).imm_control = r.imm_control ∧
    (encodeMisc d b r).size_fix1 = r.size_fix1 ∧
    (encodeMisc d b r).size_fix2 = r.size_fix2 := by
  unfold encodeMisc
  repeat' split
  all_goals exact ⟨rfl, rfl, rfl⟩

/-- The errors the per-operand loop can produce. -/
theorem encodeOps_err (sizes : List Int) :
    ∀ (ops : List OpKind) (i : Nat) (r : InstrFlags) (e : EncErr),
      encodeOps sizes ops i r = .error e →
      e = .unknownOpKindSize ∨ e = .sizeIndexNotFound ∨ e = .invalidOp3Regty := by
  intro ops
  induction ops with
  | nil => intro i r e h; simp [encodeOps] at h
  | cons op rest ih =>
    intro i r e h
    simp only [encodeOps, bind, Except.bind] at h
    cases hsz : OPKIND_SIZES op.size with
    | none => rw [hsz] at h; simp at h; simp [h]
    | some sz =>
      rw [hsz] at h
      dsimp only at h
      cases hix : listIndex sizes sz with
      | none => rw [hix] at h; simp at h; simp [h]
      | some szIdx =>
        rw [hix] at h
        dsimp only at h
        split at h
        · exact ih _ _ _ h
        · split at h
          · simp at h; simp [h]
          · exact ih _ _ _ h

/-- Possible `imm_control` presets of the `ENCODINGS` table. -/
theorem encodings_imm_control (s : String) (fl : InstrFlags)
    (h : ENCODINGS s = some fl) :
    fl.imm_control = 0 ∨ fl.imm_control = 1 ∨ fl.imm_control = 2 ∨
    fl.imm_control = 3 ∨ fl.imm_control = 4 ∨ fl.imm_control = 6 := by
  unfold ENCODINGS at h
  split at h <;> simp_all <;> subst h <;> decide

theorem lor_one_odd (n : Nat) : (n ||| 1) % 2 = 1 := by
  have h := Nat.testBit_lor n 1 0
  simp only [Nat.testBit_zero] at h
  by_contra hc
  rw [decide_eq_false hc] at h
  simp at h

/-- C5: for a descriptor whose encoding preset has `imm_control ≥ 4` and
whose `encode` succeeds, the packed record's `imm_control` has its low bit
set exactly when the `IMM_8` flag is present, the immediate operand's size is
1, or the size is `SZ_OP` together with `SIZE_8`; otherwise `imm_control`
keeps the preset's base value. -/
theorem spec_C5 (d : InstrDesc) (ign66 : Bool) (fl r : InstrFlags) (immOp : OpKind)
    (hE : ENCODINGS d.encoding = some fl) (h4 : 4 ≤ fl.imm_control)
    (hok : d.encodeFlags ign66 = .ok r)
    (hImm : d.operands.find? (fun op => op.kind = OpKind.K_IMM) = some immOp) :
    (r.imm_control % 2 = 1 ↔ immByteCond d immOp) ∧
    (¬ immByteCond d immOp → r.imm_control = fl.imm_control) := by
  have heven : fl.imm_control % 2 = 0 := by
    rcases encodings_imm_control _ _ hE with h | h | h | h | h | h <;> omega
  unfold InstrDesc.encodeFlags at hok
  rw [hE] at hok
  simp only [bind, Except.bind] at hok
  try dsimp only at hok
  cases hS : d.opszSet with
  | none => rw [hS] at hok; simp at hok
  | some opsz =>
    rw [hS] at hok
    try dsimp only at hok
    split at hok
    · simp [throw, throwThe, MonadExceptOf.throw] at hok
    · simp only [pure, Except.pure] at hok
      try dsimp only at hok
      split at hok
      · simp at hok
      · rename_i r1 hOps
        have hcore := encodeOps_core _ _ _ _ _ hOps
        have hmisc := encodeMisc_core d ign66 r1
        rw [hImm] at hok
        try dsimp only at hok
        split at hok
        · -- immByteCond holds
          rename_i hc
          split at hok
          · simp [throw, throwThe, MonadExceptOf.throw] at hok
          · simp only [pure, Except.pure, Except.ok.injEq] at hok
            subst hok
            refine ⟨?_, ?_⟩
            · simp only
              constructor
              · intro _; exact hc
              · intro _; exact lor_one_odd _
            · intro hcn; exact absurd hc hcn
        · -- immByteCond fails
          rename_i hc
          split at hok
          · simp [throw, throwThe, MonadExceptOf.throw] at hok
          · simp only [pure, Except.pure, Except.ok.injEq] at hok
            subst hok
            have himm : (encodeMisc d ign66 r1).imm_control = fl.imm_control := by
              rw [hmisc.1, hcore.1]
            refine ⟨?_, fun _ => himm⟩
            rw [himm]
            constructor
            · intro hodd; omega
            · intro hcc; exact absurd hcc hc

theorem mem_ins14 {x a : Int} {l : List Int} (h : x ∈ ins14 a l) : x = a ∨ x ∈ l := by
  induction l with
  | nil => simpa [ins14] using h
  | cons y ys ih =>
    unfold ins14 at h
    split at h
    · simpa using h
    · simp only [List.mem_cons] at h
      rcases h with h | h
      · right; simp [h]
      · rcases ih h with h' | h'
        · left; exact h'
        · right; simp [h']

theorem mem_sortFold : ∀ (l acc : List Int) (x : Int),
    x ∈ l.foldl (fun a b => ins14 b a) acc → x ∈ acc ∨ x ∈ l := by
  intro l
  induction l with
  | nil => intro acc x h; exact .inl h
  | cons y ys ih =>
    intro acc x h
    rcases ih _ _ h with h' | h'
    · rcases mem_ins14 h' with h'' | h''
      · right; simp [h'']
      · left; exact h''
    · right; simp [h']

theorem mem_stableSortKey14 {x : Int} {l : List Int} (h : x ∈ stableSortKey14 l) :
    x ∈ l := by
  unfold stableSortKey14 at h
  rcases mem_sortFold l [] x h with h' | h'
  · simp at h'
  · exact h'

/-- Every entry of the `fixed` list is a non-negative size code. -/
theorem fixedSizes_nonneg (d : InstrDesc) (fixed : List Int)
    (hF : d.fixedSizes = some fixed) : ∀ x ∈ fixed, 0 ≤ x := by
  intro x hx
  unfold InstrDesc.fixedSizes at hF
  cases hS : d.opszSet with
  | none => rw [hS] at hF; simp [bind, Except.bind] at hF
  | some opsz =>
    rw [hS] at hF
    simp only [Option.bind_eq_bind, Option.some_bind, pure, Option.some.injEq] at hF
    subst hF
    have := mem_stableSortKey14 hx
    simp only [List.mem_filter, decide_eq_true_eq] at this
    exact this.2

/-- If `encode` raises the invalid-fixed-sizes error, the fixed-size condition
really holds (and the encoding tag was known, since that lookup runs first). -/
theorem encodeFlags_err_invalid (d : InstrDesc) (ign66 : Bool)
    (h : d.encodeFlags ign66 = .error .invalidFixedSizes) :
    (ENCODINGS d.encoding).isSome = true ∧
    ∃ fixed, d.fixedSizes = some fixed ∧ badFixed fixed := by
  unfold InstrDesc.encodeFlags at h
  cases hE : ENCODINGS d.encoding with
  | none => rw [hE] at h; simp [bind, Except.bind] at h
  | some fl =>
    rw [hE] at h
    simp only [bind, Except.bind] at h
    try dsimp only at h
    cases hS : d.opszSet with
    | none => rw [hS] at h; simp at h
    | some opsz =>
      rw [hS] at h
      try dsimp only at h
      split at h
      · rename_i hb
        refine ⟨by simp [hE], _, ?_, hb⟩
        simp [InstrDesc.fixedSizes, hS, pure]
      · rename_i hb
        exfalso
        simp only [pure, Except.pure] at h
        try dsimp only at h
        split at h
        · rename_i e hOps
          simp only [Except.error.injEq] at h
          subst h
          rcases encodeOps_err _ _ _ _ _ hOps with h1 | h1 | h1 <;> simp at h1
        · repeat' split at h
          all_goals simp_all

/-- Conversely, a known encoding together with the fixed-size condition makes
`encode` raise exactly the invalid-fixed-sizes error. -/
theorem encodeFlags_badfix (d : InstrDesc) (ign66 : Bool) (fl : InstrFlags)
    (opsz : List Int) (hE : ENCODINGS d.encoding = some fl)
    (hS : d.opszSet = some opsz)
    (hb : badFixed (stableSortKey14 (opsz.filter (fun x => 0 ≤ x)))) :
    d.encodeFlags ign66 = .error .invalidFixedSizes := by
  unfold InstrDesc.encodeFlags
  rw [hE]
  simp only [bind, Except.bind]
  try dsimp only
  rw [hS]
  try dsimp only
  rw [if_pos hb]

/-- On success, `size_fix1`/`size_fix2` hold `sizes[0]` and `sizes[1] - 1`. -/
theorem encodeFlags_fix_fields (d : InstrDesc) (ign66 : Bool) (r : InstrFlags)
    (h : d.encodeFlags ign66 = .ok r) :
    ∃ fixed, d.fixedSizes = some fixed ∧ ¬ badFixed fixed ∧
      r.size_fix1 = ((sizesList fixed).getD 0 0).toNat ∧
      r.size_fix2 = ((sizesList fixed).getD 1 0 - 1).toNat := by
  unfold InstrDesc.encodeFlags at h
  cases hE : ENCODINGS d.encoding with
  | none => rw [hE] at h; simp [bind, Except.bind] at h
  | some fl =>
    rw [hE] at h
    simp only [bind, Except.bind] at h
    try dsimp only at h
    cases hS : d.opszSet with
    | none => rw [hS] at h; simp at h
    | some opsz =>
      rw [hS] at h
      try dsimp only at h
      split at h
      · simp [throw, throwThe, MonadExceptOf.throw] at h
      · rename_i hb
        simp only [pure, Except.pure] at h
        try dsimp only at h
        split at h
        · simp at h
        · rename_i r1 hOps
          have hcore := encodeOps_core _ _ _ _ _ hOps
          have hmisc := encodeMisc_core d ign66 r1
          have hfix : r.size_fix1 = r1.size_fix1 ∧ r.size_fix2 = r1.size_fix2 := by
            repeat' split at h
            all_goals first
              | (simp only [pure, Except.pure, Except.ok.injEq] at h; subst h;
                 exact ⟨hmisc.2.1, hmisc.2.2⟩)
              | simp at h
          refine ⟨_, by simp [InstrDesc.fixedSizes, hS, pure], hb, ?_, ?_⟩
          · rw [hfix.1, hcore.2.1]
          · rw [hfix.2, hcore.2.2]

/-- C6 (amended): for a descriptor whose operand size codes resolve,
`encode` raises the invalid-fixed-sizes error exactly when the encoding tag
is known and the fixed (non-negative) size codes, stably sorted so codes
in 1..4 come last, number more than two or have a second element outside
1..4 (it can still fail later for other reasons, e.g. a non-VEC operand 3);
on success it stores `size_fix1 = sizes[0]` and `size_fix2 = sizes[1] - 1`
with `sizes = (fixed + [1,1])[:2]`. -/
theorem spec_C6 (d : InstrDesc) (ign66 : Bool) (fixed : List Int)
    (hF : d.fixedSizes = some fixed) :
    (d.encodeFlags ign66 = .error .invalidFixedSizes ↔
      (ENCODINGS d.encoding).isSome = true ∧ badFixed fixed) ∧
    (∀ r, d.encodeFlags ign66 = .ok r →
      ¬ badFixed fixed ∧
      (r.size_fix1 : Int) = (sizesList fixed).getD 0 0 ∧
      (r.size_fix2 : Int) = (sizesList fixed).getD 1 0 - 1) := by
  constructor
  · constructor
    · intro h
      obtain ⟨hs, fixed', hF', hb⟩ := encodeFlags_err_invalid d ign66 h
      rw [hF] at hF'
      injection hF' with he
      subst he
      exact ⟨hs, hb⟩
    · rintro ⟨hs, hb⟩
      cases hE : ENCODINGS d.encoding with
      | none => rw [hE] at hs; simp at hs
      | some fl =>
        cases hS : d.opszSet with
        | none =>
          unfold InstrDesc.fixedSizes at hF; rw [hS] at hF
          simp [bind, Except.bind] at hF
        | some opsz =>
          have hfix : stableSortKey14 (opsz.filter (fun x => 0 ≤ x)) = fixed := by
            unfold InstrDesc.fixedSizes at hF; rw [hS] at hF
            simpa [pure] using hF
          exact encodeFlags_badfix d ign66 fl opsz hE hS (by rw [hfix]; exact hb)
  · intro r hok
    obtain ⟨fixed', hF', hb, h1, h2⟩ := encodeFlags_fix_fields d ign66 r hok
    rw [hF] at hF'
    injection hF' with he
    subst he
    have hnn := fixedSizes_nonneg d fixed hF
    have h0' : (0 : Int) ≤ (sizesList fixed).getD 0 0 := by
      match fixed, hnn with
      | [], _ => simp [sizesList]
      | a :: rest, hnn => simpa [sizesList] using hnn a (by simp)
    have h1' : (1 : Int) ≤ (sizesList fixed).getD 1 0 := by
      match fixed, hb, hnn with
      | [], _, _ => simp [sizesList]
      | [a], _, _ => simp [sizesList]
      | a :: b :: c :: rest, hb, _ =>
        exact absurd (by simp [badFixed]) hb
      | [a, b], hb, hnn =>
        have hgb : (sizesList [a, b]).getD 1 0 = b := by simp [sizesList]
        have hfd : ([a, b] : List Int).getD 1 0 = b := by simp
        rw [hgb]
        simp only [badFixed, not_or, not_and, not_not] at hb
        have h14 := hb.2 (by simp)
        rw [hfd] at h14
        omega
    refine ⟨hb, ?_, ?_⟩
    · rw [h1]; exact Int.toNat_of_nonneg h0'
    · rw [h2]; exact Int.toNat_of_nonneg (by omega)

theorem spec_C5_witness :
    ((({ modrm_idx := 3, imm_idx := 2, imm_control := 5, op0_size := 2,
         size_fix1 := 1, op1_regty := 7 } : InstrFlags).imm_control % 2 = 1 ↔
        immByteCond descC5 ⟨1, "imm"⟩) ∧
     (¬ immByteCond descC5 ⟨1, "imm"⟩ →
       ({ modrm_idx := 3, imm_idx := 2, imm_control := 5, op0_size := 2,
          size_fix1 := 1, op1_regty := 7 } : InstrFlags).imm_control =
       ({ modrm_idx := 3, imm_idx := 2, imm_control := 4 } : InstrFlags).imm_control)) :=
  spec_C5 descC5 false { modrm_idx := 3, imm_idx := 2, imm_control := 4 }
    { modrm_idx := 3, imm_idx := 2, imm_control := 5, op0_size := 2,
      size_fix1 := 1, op1_regty := 7 } ⟨1, "imm"⟩
    (by rfl) (by decide) (by rfl) (by rfl)

theorem spec_C6_witness :
    ¬ badFixed [1] ∧
    (({ modrm_idx := 3, imm_idx := 2, imm_control := 5, op0_size := 2,
        size_fix1 := 1, op1_regty := 7 } : InstrFlags).size_fix1 : Int) =
      (sizesList [1]).getD 0 0 ∧
    (({ modrm_idx := 3, imm_idx := 2, imm_control := 5, op0_size := 2,
        size_fix1 := 1, op1_regty := 7 } : InstrFlags).size_fix2 : Int) =
      (sizesList [1]).getD 1 0 - 1 :=
  (spec_C6 descC5 false [1] (by rfl)).2
    { modrm_idx := 3, imm_idx := 2, imm_control := 5, op0_size := 2,
      size_fix1 := 1, op1_regty := 7 } (by rfl)

theorem sum_map_const {α : Type} (c : Nat) :
    ∀ l : List α, (l.map (fun _ => c)).sum = l.length * c := by
  intro l
  induction l with
  | nil => simp
  | cons x xs ih => simp [ih, Nat.succ_mul, Nat.add_comm]

/-- The Cartesian product has as many elements as the product of the factor
lengths. -/
theorem pyProduct_length {α : Type} :
    ∀ ls : List (List α), (pyProduct ls).length = (ls.map List.length).prod := by
  intro ls
  induction ls with
  | nil => rfl
  | cons l ls ih =>
    simp only [pyProduct, List.length_flatMap, List.map_cons, List.prod_cons,
      Function.comp_def, List.length_map]
    rw [sum_map_const, ih]

/-- `for_trie` produces exactly the product of the stage cardinalities. -/
theorem for_trie_length (o : Opcode) :
    (o.for_trie).length = ((o.stages).map (fun s => s.2.length)).prod := by
  simp [Opcode.for_trie, pyProduct_length, Function.comp_def]

/-- Every stage contributes at least one alternative. -/
theorem stages_lens_pos (o : Opcode) :
    ∀ x ∈ (o.stages).map (fun s => s.2.length), 0 < x := by
  obtain ⟨pfx, esc, opc, ext, mreg, ocx, vex, vexl, rexw⟩ := o
  intro x hx
  simp only [Opcode.stages, List.map_append, List.mem_append] at hx
  rcases hx with ((((h | h) | h) | h) | h) | h
  · simp only [List.map_cons, List.map_nil, List.mem_cons, List.not_mem_nil,
      or_false] at h
    subst h; simp
  · simp only [List.map_cons, List.map_nil, List.mem_cons, List.not_mem_nil,
      or_false] at h
    subst h
    split <;> simp
  · cases pfx with
    | none => simp at h
    | some p => cases p <;> simp_all
  · cases ocx with
    | none => simp at h
    | some xv =>
      simp only [List.map_cons, List.map_nil, List.mem_cons, List.not_mem_nil,
        or_false] at h
      rcases h with h | h <;> (subst h; simp)
  · cases mreg with
    | none => simp at h
    | some mr =>
      obtain ⟨ro, mc⟩ := mr
      simp only [List.map_cons, List.map_nil, List.mem_cons, List.not_mem_nil,
        or_false] at h
      subst h
      cases mc <;> cases ro <;>
        simp [List.length_flatMap, List.flatMap_cons, List.flatMap_nil]
  · split at h
    · cases rexw with
      | none =>
        cases vexl with
        | none => simp_all [List.flatMap_cons, List.flatMap_nil]
        | some u => cases u <;> simp_all [List.flatMap_cons, List.flatMap_nil]
      | some w =>
        cases w <;> (cases vexl with
          | none => simp_all [List.flatMap_cons, List.flatMap_nil]
          | some u => cases u <;> simp_all [List.flatMap_cons, List.flatMap_nil])
    · simp at h

theorem for_trie_pos (o : Opcode) : 1 ≤ (o.for_trie).length := by
  rw [for_trie_length]
  exact List.prod_pos (stages_lens_pos o)

/-- The extended flag (`+`) scales the path count by exactly 8: the TABLE256
stage fans over 8 consecutive bytes and no other stage depends on it. -/
theorem for_trie_ext8 (o : Opcode) :
    ({ o with extended := true } : Opcode).for_trie.length =
      8 * ({ o with extended := false } : Opcode).for_trie.length := by
  obtain ⟨pfx, esc, opc, ext, mreg, ocx, vex, vexl, rexw⟩ := o
  rw [for_trie_length, for_trie_length]
  simp only [Opcode.stages, List.map_append, List.prod_append, List.map_cons,
    List.map_nil, List.prod_cons, List.prod_nil, if_true, if_false,
    List.length_map, List.length_range, List.length_cons, List.length_nil]
  simp only [show (false = true) = False from by simp,
    show (true = true) = True from by simp, if_true, if_false,
    List.length_map, List.length_range, List.length_cons, List.length_nil]
  ring

/-- The NFx prefix scales the path count by exactly 2 relative to no prefix:
its TABLE_PREFIX stage carries the two indices 0 and 1. -/
theorem for_trie_nfx2 (o : Opcode) :
    ({ o with pfx := some .NFx } : Opcode).for_trie.length =
      2 * ({ o with pfx := none } : Opcode).for_trie.length := by
  obtain ⟨pfx, esc, opc, ext, mreg, ocx, vex, vexl, rexw⟩ := o
  rw [for_trie_length, for_trie_length]
  simp only [Opcode.stages, List.map_append, List.prod_append, List.map_cons,
    List.map_nil, List.prod_cons, List.prod_nil, List.length_cons, List.length_nil]
  ring

/-- C7: every parsed opcode yields at least one trie path; setting the
extended (`+`) flag multiplies the path count by exactly 8, and the NFx
prefix multiplies it by exactly 2 (its TABLE_PREFIX stage holds
indices 0 and 1). -/
theorem spec_C7 (s : String) (o : Opcode) (hp : Opcode.parse s = some o) :
    1 ≤ (o.for_trie).length ∧
    ({ o with extended := true } : Opcode).for_trie.length =
      8 * ({ o with extended := false } : Opcode).for_trie.length ∧
    ({ o with pfx := some .NFx } : Opcode).for_trie.length =
      2 * ({ o with pfx := none } : Opcode).for_trie.length ∧
    (({ o with pfx := some .NFx } : Opcode).stages).filter
        (fun st => st.1 = EntryKind.TABLE_PREFIX) =
      [(EntryKind.TABLE_PREFIX, [0, 1])] := by
  refine ⟨for_trie_pos o, for_trie_ext8 o, for_trie_nfx2 o, ?_⟩
  obtain ⟨pfx, esc, opc, ext, mreg, ocx, vex, vexl, rexw⟩ := o
  simp only [Opcode.stages, List.filter_append]
  simp only [List.filter, decide_eq_true_eq]
  rcases mreg with _ | ⟨ro, mc⟩ <;> rcases ocx with _ | xv <;>
    split <;> simp_all [List.filter]

theorem spec_C7_witness :
    1 ≤ ((⟨none, 1, 0x10, false, none, none, false, none, none⟩ : Opcode).for_trie).length ∧
    ({ (⟨none, 1, 0x10, false, none, none, false, none, none⟩ : Opcode) with
        extended := true } : Opcode).for_trie.length =
      8 * ({ (⟨none, 1, 0x10, false, none, none, false, none, none⟩ : Opcode) with
        extended := false } : Opcode).for_trie.length ∧
    ({ (⟨none, 1, 0x10, false, none, none, false, none, none⟩ : Opcode) with
        pfx := some .NFx } : Opcode).for_trie.length =
      2 * ({ (⟨none, 1, 0x10, false, none, none, false, none, none⟩ : Opcode) with
        pfx := none } : Opcode).for_trie.length ∧
    (({ (⟨none, 1, 0x10, false, none, none, false, none, none⟩ : Opcode) with
        pfx := some .NFx } : Opcode).stages).filter
        (fun st => st.1 = EntryKind.TABLE_PREFIX) =
      [(EntryKind.TABLE_PREFIX, [0, 1])] :=
  spec_C7 "0f10" ⟨none, 1, 0x10, false, none, none, false, none, none⟩ (by rfl)

/-- C1 (amended): a TABLE_VEX stage is appended exactly when `vexl` or `rexw`
is declared as a concrete `0` or `1` (`IG` or absent alone appends nothing);
the spec's string `VEX.66.0f.WIG.LIG.58` does not parse (W/L precede the
escape in the grammar), its grammar-conforming variant `VEX.66.WIG.LIG.0f58`
yields exactly one path with no TABLE_VEX stage, and a concrete W with a
wildcard L (`VEX.66.W0.LIG.0f58`) yields two paths, the wildcard expanding
to both L values. -/
theorem spec_C1 :
    (∀ o : Opcode,
      ((∃ vs, (EntryKind.TABLE_VEX, vs) ∈ o.stages) ↔
        (o.vexl = some .v0 ∨ o.vexl = some .v1 ∨
         o.rexw = some .v0 ∨ o.rexw = some .v1))) ∧
    Opcode.parse "VEX.66.0f.WIG.LIG.58" = none ∧
    Opcode.parse "VEX.66.WIG.LIG.0f58" =
      some ⟨some .P66, 1, 0x58, false, none, none, true, some .ig, some .ig⟩ ∧
    Opcode.for_trie ⟨some .P66, 1, 0x58, false, none, none, true, some .ig, some .ig⟩ =
      [[(.TABLE_ROOT, 5), (.TABLE256, 0x58), (.TABLE_PREFIX, 1)]] ∧
    Opcode.parse "VEX.66.W0.LIG.0f58" =
      some ⟨some .P66, 1, 0x58, false, none, none, true, some .ig, some .v0⟩ ∧
    Opcode.for_trie ⟨some .P66, 1, 0x58, false, none, none, true, some .ig, some .v0⟩ =
      [[(.TABLE_ROOT, 5), (.TABLE256, 0x58), (.TABLE_PREFIX, 1), (.TABLE_VEX, 0)],
       [(.TABLE_ROOT, 5), (.TABLE256, 0x58), (.TABLE_PREFIX, 1), (.TABLE_VEX, 2)]] := by
  refine ⟨?_, by decide, by decide, by decide, by decide, by decide⟩
  intro o
  obtain ⟨pfx, esc, opc, ext, mreg, ocx, vex, vexl, rexw⟩ := o
  constructor
  · rintro ⟨vs, hv⟩
    simp only [Opcode.stages, List.mem_append, List.mem_cons, List.not_mem_nil,
      or_false] at hv
    rcases hv with ((((h | h) | h) | h) | h) | h
    · simp at h
    · simp at h
    · rcases pfx with _ | p
      · simp at h
      · cases p <;> simp_all
    · rcases ocx with _ | xv
      · simp at h
      · simp at h
    · rcases mreg with _ | mr
      · simp at h
      · simp at h
    · split at h
      · rename_i hc; exact hc
      · simp at h
  · intro hc
    dsimp only at hc
    have hm : (EntryKind.TABLE_VEX,
        (match rexw with
         | some WLVal.v0 => [0] | some WLVal.v1 => [1] | _ => [0, 1]).flatMap
          (fun x => List.map (fun y => x + y)
            (match vexl with
             | some WLVal.v0 => [0] | some WLVal.v1 => [2] | _ => [0, 2]))) ∈
        (⟨pfx, esc, opc, ext, mreg, ocx, vex, vexl, rexw⟩ : Opcode).stages := by
      simp only [Opcode.stages, List.mem_append]
      right
      rw [if_pos hc]
      simp
      rcases vexl with _ | u <;> rcases rexw with _ | w <;>
        first
          | rfl
          | (cases u <;> rfl)
    exact ⟨_, hm⟩

/-- C8 (amended): the opcode string of the scenario is `NP.0f10` (escape and
opcode byte are contiguous in the grammar; `NP.0f.10` does not parse).  It
yields the single path `[(ROOT,1),(TABLE256,0x10),(TABLE_PREFIX,0)]`; the
descriptor `RM - XMM XMM128 - MOVUPS` parses to operands XMM (size SZ_VEC)
and XMM128 (fixed 16), and — with `ign66` set, as the driver does for an
`NP`-prefixed opcode — encodes with `modrm_idx = 2`, `modreg_idx = 3`
(slots 1 and 0 stored XOR 3) and `imm_control = 0`. -/
theorem spec_C8 :
    Opcode.parse "NP.0f10" =
      some ⟨some .NP, 1, 0x10, false, none, none, false, none, none⟩ ∧
    Opcode.for_trie ⟨some .NP, 1, 0x10, false, none, none, false, none, none⟩ =
      [[(.TABLE_ROOT, 1), (.TABLE256, 0x10), (.TABLE_PREFIX, 0)]] ∧
    InstrDesc.parse "RM - XMM XMM128 - MOVUPS" =
      some ⟨"MOVUPS", "RM", [⟨OpKind.SZ_VEC, "XMM"⟩, ⟨16, "XMM"⟩], []⟩ ∧
    InstrDesc.encodeFlags ⟨"MOVUPS", "RM", [⟨OpKind.SZ_VEC, "XMM"⟩, ⟨16, "XMM"⟩], []⟩ true =
      .ok { modrm_idx := 2, modreg_idx := 3, op0_size := 3, size_fix1 := 5,
            op0_regty := 2, op1_regty := 2, ign66 := 1 } ∧
    ({ modrm_idx := 2, modreg_idx := 3, op0_size := 3, size_fix1 := 5,
       op0_regty := 2, op1_regty := 2, ign66 := 1 } : InstrFlags).modrm_idx = 2 ∧
    ({ modrm_idx := 2, modreg_idx := 3, op0_size := 3, size_fix1 := 5,
       op0_regty := 2, op1_regty := 2, ign66 := 1 } : InstrFlags).modreg_idx = 3 ∧
    ({ modrm_idx := 2, modreg_idx := 3, op0_size := 3, size_fix1 := 5,
       op0_regty := 2, op1_regty := 2, ign66 := 1 } : InstrFlags).imm_control = 0 := by
  refine ⟨by decide, by decide, by decide, by decide, rfl, rfl, rfl⟩

theorem vkeyLe_total (a b : Int × Nat) : vkeyLe a b = true ∨ vkeyLe b a = true := by
  simp only [vkeyLe, Bool.or_eq_true, Bool.and_eq_true, decide_eq_true_eq]
  omega

theorem vkeyLe_trans {a b c : Int × Nat} (h1 : vkeyLe a b = true)
    (h2 : vkeyLe b c = true) : vkeyLe a c = true := by
  simp only [vkeyLe, Bool.or_eq_true, Bool.and_eq_true, decide_eq_true_eq] at h1 h2 ⊢
  omega

theorem mem_sortIns {x v : EVariant} :
    ∀ {l : List EVariant}, x ∈ sortIns v l → x = v ∨ x ∈ l := by
  intro l
  induction l with
  | nil => intro h; simpa [sortIns] using h
  | cons y ys ih =>
    intro h
    unfold sortIns at h
    split at h
    · rcases List.mem_cons.mp h with h' | h'
      · right; simp [h']
      · rcases ih h' with h'' | h''
        · left; exact h''
        · right; simp [h'']
    · simpa using h

theorem sortIns_sorted (v : EVariant) (l : List EVariant)
    (h : l.Pairwise (fun a b => vkeyLe (vkey a) (vkey b) = true)) :
    (sortIns v l).Pairwise (fun a b => vkeyLe (vkey a) (vkey b) = true) := by
  induction l with
  | nil => simp [sortIns]
  | cons y ys ih =>
    rw [List.pairwise_cons] at h
    obtain ⟨hy, hys⟩ := h
    unfold sortIns
    split
    · rename_i hle
      rw [List.pairwise_cons]
      refine ⟨?_, ih hys⟩
      intro b hb
      rcases mem_sortIns hb with hb' | hb'
      · rw [hb']; exact hle
      · exact hy b hb'
    · rename_i hgt
      have hvy : vkeyLe (vkey v) (vkey y) = true := by
        rcases vkeyLe_total (vkey y) (vkey v) with h' | h'
        · exact absurd h' hgt
        · exact h'
      rw [List.pairwise_cons]
      constructor
      · intro b hb
        rcases List.mem_cons.mp hb with hb' | hb'
        · rw [hb']; exact hvy
        · exact vkeyLe_trans hvy (hy b hb')
      · rw [List.pairwise_cons]; exact ⟨hy, hys⟩

theorem variantSort_sorted_aux :
    ∀ (vs acc : List EVariant),
      acc.Pairwise (fun a b => vkeyLe (vkey a) (vkey b) = true) →
      (vs.foldl (fun a v => sortIns v a) acc).Pairwise
        (fun a b => vkeyLe (vkey a) (vkey b) = true) := by
  intro vs
  induction vs with
  | nil => intro acc h; exact h
  | cons v rest ih => intro acc h; exact ih _ (sortIns_sorted v acc h)

theorem variantSort_sorted (vs : List EVariant) :
    (variantSort vs).Pairwise (fun a b => vkeyLe (vkey a) (vkey b) = true) :=
  variantSort_sorted_aux vs [] (by simp)

/-- C9: within every mnemonic group, after deduplication by
`(encoding, imm_size, tys)`, the emitted chain is sorted by `imm_size`
ascending and then by the encoding preference `O<OA<OI<IA<M<MI<MR<RM`
(non-listed encodings key as 0, like Python's `False`); for the MOV group
with variants MR, RM, MI, OI the emitted order is MR, RM, OI, MI. -/
theorem spec_C9 :
    encPrio = ["O", "OA", "OI", "IA", "M", "MI", "MR", "RM"] ∧
    (∀ vs : List EVariant,
      (processGroup vs).Pairwise (fun a b => vkeyLe (vkey a) (vkey b) = true)) ∧
    processGroup [⟨"MR", 0, 0x11, "0x89"⟩, ⟨"RM", 0, 0x11, "0x8b"⟩,
                  ⟨"MI", 4, 1, "0xc7"⟩, ⟨"OI", 4, 1, "0xb8"⟩] =
      [⟨"MR", 0, 0x11, "0x89"⟩, ⟨"RM", 0, 0x11, "0x8b"⟩,
       ⟨"OI", 4, 1, "0xb8"⟩, ⟨"MI", 4, 1, "0xc7"⟩] :=
  ⟨rfl, fun vs => variantSort_sorted (variantDedup vs), by decide⟩

theorem pyGet_pySet_self {α β : Type} [DecidableEq α] :
    ∀ (l : List (α × β)) (k : α) (v : β), pyGet (pySet l k v) k = some v := by
  intro l
  induction l with
  | nil => intro k v; simp [pySet, pyGet]
  | cons p rest ih =>
    intro k v
    unfold pySet
    split
    · rename_i hk; simp [pyGet, hk]
    · rename_i hk; simp only [pyGet]
      split
      · rename_i h'; exact absurd h' hk
      · exact ih k v

theorem pyGet_pySet_ne {α β : Type} [DecidableEq α] :
    ∀ (l : List (α × β)) (k k' : α) (v : β), k' ≠ k →
      pyGet (pySet l k v) k' = pyGet l k' := by
  intro l
  induction l with
  | nil => intro k k' v h; simp [pySet, pyGet]; intro he; exact absurd he.symm h
  | cons p rest ih =>
    intro k k' v h
    unfold pySet
    split
    · rename_i hk
      subst hk
      simp only [pyGet]
      split
      · rename_i h'; exact absurd h'.symm h
      · rfl
    · simp only [pyGet]
      split
      · rfl
      · exact ih k k' v h

theorem pyGet_append_left {α β : Type} [DecidableEq α] :
    ∀ (l : List (α × β)) (k : α) (x : β), pyGet l k = some x →
      ∀ l2, pyGet (l ++ l2) k = some x := by
  intro l
  induction l with
  | nil => intro k x h; simp [pyGet] at h
  | cons p rest ih =>
    intro k x h l2
    unfold pyGet at h ⊢
    split at h
    · rename_i hk
      simp only [List.cons_append, pyGet]
      rw [if_pos hk]
      exact h
    · rename_i hk
      simp only [List.cons_append, pyGet]
      rw [if_neg hk]
      exact ih k x h l2

/-- `appendGroup` keeps the FE_NOP group's seed at the front; new tail
entries are the appended variant. -/
theorem appendGroup_nop (gs : List (String × List EVariant)) (name : String)
    (v : EVariant) (t : List EVariant)
    (h : pyGet gs "FE_NOP" = some (nopSeed :: t)) :
    ∃ t', pyGet (appendGroup gs name v) "FE_NOP" = some (nopSeed :: t') ∧
      ∀ x ∈ t', x ∈ t ∨ x = v := by
  unfold appendGroup
  by_cases hn : name = "FE_NOP"
  · subst hn
    rw [h]
    refine ⟨t ++ [v], ?_, ?_⟩
    · have := pyGet_pySet_self gs "FE_NOP" ((nopSeed :: t) ++ [v])
      simpa using this
    · intro x hx
      rcases List.mem_append.mp hx with h' | h'
      · exact .inl h'
      · exact .inr (by simpa using h')
  · cases hg : pyGet gs name with
    | some vs =>
      refine ⟨t, ?_, fun x hx => .inl hx⟩
      rw [pyGet_pySet_ne gs name "FE_NOP" (vs ++ [v]) (fun he => hn he.symm)]
      exact h
    | none =>
      exact ⟨t, pyGet_append_left gs "FE_NOP" _ h _, fun x hx => .inl hx⟩

/-- Folding a batch of appends keeps the seed in front and only adds
variants from the batch. -/
theorem foldl_appendGroup_nop :
    ∀ (vs : List (String × EVariant)) (gs : List (String × List EVariant))
      (t : List EVariant),
      pyGet gs "FE_NOP" = some (nopSeed :: t) →
      (∀ x ∈ t, (0 : Int) ≤ x.immsz) →
      (∀ p ∈ vs, (0 : Int) ≤ p.2.immsz) →
      ∃ t', pyGet (vs.foldl (fun g nv => appendGroup g nv.1 nv.2) gs) "FE_NOP" =
          some (nopSeed :: t') ∧ ∀ x ∈ t', (0 : Int) ≤ x.immsz := by
  intro vs
  induction vs with
  | nil => intro gs t h ht _; exact ⟨t, h, ht⟩
  | cons nv rest ih =>
    intro gs t h ht hvs
    rw [List.foldl_cons]
    obtain ⟨t1, h1, hsub⟩ := appendGroup_nop gs nv.1 nv.2 t h
    have ht1 : ∀ x ∈ t1, (0 : Int) ≤ x.immsz := by
      intro x hx
      rcases hsub x hx with h' | h'
      · exact ht x h'
      · rw [h']; exact hvs nv (by simp)
    exact ih _ t1 h1 ht1 (fun p hp => hvs p (by simp [hp]))

/-- The immediate size of a variant is never negative when operand sizes come
from the OPKINDS range. -/
theorem quadImmSize_nonneg (d : InstrDesc) (enc : InstrFlags) (opsize : Nat)
    (imm : Int)
    (hwf : ∀ op ∈ d.operands, 0 ≤ op.size ∨ op.size = OpKind.SZ_OP ∨
      op.size = OpKind.SZ_VEC)
    (h : quadImmSize d enc opsize = .ok imm) : 0 ≤ imm := by
  unfold quadImmSize at h
  split at h
  · split at h
    · simp only [pure, Except.pure, Except.ok.injEq] at h; omega
    · split at h
      · simp only [pure, Except.pure, Except.ok.injEq] at h; omega
      · simp only [bind, Except.bind] at h
        cases hop : d.operands[enc.imm_idx ^^^ 3]? with
        | none => rw [hop] at h; simp at h
        | some op =>
          rw [hop] at h
          try dsimp only at h
          cases hab : op.abssizeE (some ((opsize : Int) / 8)) none with
          | error e => rw [hab] at h; simp at h
          | ok sz =>
            rw [hab] at h
            simp only [pure, Except.pure, Except.ok.injEq] at h
            have hsz : 0 ≤ sz := by
              unfold OpKind.abssizeE at hab
              split at hab
              · simp only [Except.ok.injEq] at hab
                subst hab
                have hnn : (0 : Int) ≤ (opsize : Int) := Int.ofNat_nonneg _
                omega
              · rename_i h1
                split at hab
                · simp at hab
                · rename_i h2
                  simp only [Except.ok.injEq] at hab
                  subst hab
                  rcases hwf op (List.getElem?_mem hop) with h' | h' | h'
                  · exact h'
                  · exact absurd h' h1
                  · exact absurd h' h2
            rw [← h]
            have : (0 : Int) ≤ (if d.mnemonic ≠ "MOVABS" then (4 : Int) else 8) := by
              split <;> omega
            exact le_min this hsz
  · simp only [pure, Except.pure, Except.ok.injEq] at h; omega

/-- Variants produced by `variantOfQuad` have non-negative immediate size. -/
theorem variantOfQuad_imm (d : InstrDesc) (enc : InstrFlags)
    (sep po pv : Bool) (opcI : Nat) (fl : String)
    (q : Nat × Nat × (String × String) × List Char) (n : String) (v : EVariant)
    (hwf : ∀ op ∈ d.operands, 0 ≤ op.size ∨ op.size = OpKind.SZ_OP ∨
      op.size = OpKind.SZ_VEC)
    (h : variantOfQuad d enc sep po pv opcI fl q = .ok (some (n, v))) :
    0 ≤ v.immsz := by
  unfold variantOfQuad at h
  simp only [bind, Except.bind] at h
  split at h
  · cases hh : q.2.2.2.head? with
    | none => rw [hh] at h; simp at h
    | some c =>
      rw [hh] at h
      try dsimp only at h
      split at h
      · simp [pure, Except.pure] at h
      · simp only [pure, Except.pure] at h
        try dsimp only at h
        cases hi : quadImmSize d enc q.1 with
        | error e => rw [hi] at h; simp at h
        | ok imm =>
          rw [hi] at h
          try dsimp only at h
          cases ht : quadTys d q.1 q.2.2.2 with
          | error e => rw [ht] at h; simp at h
          | ok tysI =>
            rw [ht] at h
            try dsimp only at h
            cases hn : quadName d sep po pv q.1 q.2.1 q.2.2.1.1 q.2.2.2 with
            | error e => rw [hn] at h; simp at h
            | ok nm =>
              rw [hn] at h
              simp only [pure, Except.pure, Except.ok.injEq, Option.some.injEq,
                Prod.mk.injEq] at h
              have hv : v = ⟨d.encoding, imm, tysI,
                  quadOpcS d q.1 opcI fl q.2.2.1.2⟩ := h.2.symm
              rw [hv]
              exact quadImmSize_nonneg d enc q.1 imm hwf hi
  · try simp only [pure, Except.pure] at h
    try dsimp only at h
    cases hi : quadImmSize d enc q.1 with
    | error e => rw [hi] at h; simp at h
    | ok imm =>
      rw [hi] at h
      try dsimp only at h
      cases ht : quadTys d q.1 q.2.2.2 with
      | error e => rw [ht] at h; simp at h
      | ok tysI =>
        rw [ht] at h
        try dsimp only at h
        cases hn : quadName d sep po pv q.1 q.2.1 q.2.2.1.1 q.2.2.2 with
        | error e => rw [hn] at h; simp at h
        | ok nm =>
          rw [hn] at h
          simp only [pure, Except.pure, Bool.false_eq_true, if_false,
            Except.ok.injEq, Option.some.injEq, Prod.mk.injEq] at h
          have hv : v = ⟨d.encoding, imm, tysI,
              quadOpcS d q.1 opcI fl q.2.2.1.2⟩ := h.2.symm
          rw [hv]
          exact quadImmSize_nonneg d enc q.1 imm hwf hi

/-- A per-element property maintained by every successful fold step holds of
every element of a successful fold's result. -/
theorem foldlM_preserve {α β : Type} (P : β → Prop)
    (f : List β → α → Except VErr (List β))
    (hf : ∀ acc a out, f acc a = .ok out → (∀ p ∈ acc, P p) → ∀ p ∈ out, P p) :
    ∀ (l : List α) (acc out : List β), (∀ p ∈ acc, P p) →
      List.foldlM f acc l = .ok out → ∀ p ∈ out, P p := by
  intro l
  induction l with
  | nil =>
    intro acc out hacc h
    simp only [List.foldlM_nil, pure, Except.pure, Except.ok.injEq] at h
    subst h
    exact hacc
  | cons a t ih =>
    intro acc out hacc h
    simp only [List.foldlM_cons, bind, Except.bind] at h
    split at h
    · exact Except.noConfusion h
    · rename_i b heq
      exact ih b out (hf acc a b heq hacc) h

/-- Each successful loop iteration preserves non-negative immediate sizes. -/
theorem vStep_preserve (d : InstrDesc) (enc : InstrFlags) (sep po pv : Bool)
    (opcI : Nat) (fl : String)
    (hwf : ∀ op ∈ d.operands, 0 ≤ op.size ∨ op.size = OpKind.SZ_OP ∨
      op.size = OpKind.SZ_VEC)
    (acc : List (String × EVariant)) (q : Nat × Nat × (String × String) × List Char)
    (out : List (String × EVariant))
    (h : vStep d enc sep po pv opcI fl acc q = .ok out)
    (hacc : ∀ p ∈ acc, (0 : Int) ≤ p.2.immsz) :
    ∀ p ∈ out, (0 : Int) ≤ p.2.immsz := by
  unfold vStep at h
  simp only [bind, Except.bind] at h
  cases hv : variantOfQuad d enc sep po pv opcI fl q with
  | error e => rw [hv] at h; exact Except.noConfusion h
  | ok onv =>
    rw [hv] at h
    try dsimp only at h
    cases onv with
    | none =>
      simp only [pure, Except.pure, Except.ok.injEq] at h
      subst h
      exact hacc
    | some nv =>
      simp only [pure, Except.pure, Except.ok.injEq] at h
      subst h
      intro p hp
      rcases List.mem_append.mp hp with h' | h'
      · exact hacc p h'
      · obtain ⟨n, v⟩ := nv
        simp only [List.mem_singleton] at h'
        rw [h']
        exact variantOfQuad_imm _ _ _ _ _ _ _ _ _ _ hwf hv

/-- Every variant `variantsOf` registers has a non-negative immediate size. -/
theorem variantsOf_imm (o : Opcode) (d : InstrDesc)
    (out : List (String × EVariant))
    (hwf : ∀ op ∈ d.operands, 0 ≤ op.size ∨ op.size = OpKind.SZ_OP ∨
      op.size = OpKind.SZ_VEC)
    (h : variantsOf o d = .ok out) :
    ∀ p ∈ out, (0 : Int) ≤ p.2.immsz := by
  unfold variantsOf at h
  simp only [bind, Except.bind] at h
  iterate 8
    all_goals try split at h
    all_goals try exact Except.noConfusion h
  all_goals
    refine foldlM_preserve (fun p => (0 : Int) ≤ p.2.immsz) _ ?_ _ [] out
      (by simp) h
    intro acc a out2 h2 hacc
    exact vStep_preserve _ _ _ _ _ _ _ hwf acc a out2 h2 hacc

/-- `pyGet` through the final `map` of `encodeTable`: looking a key up in the
processed map is processing the raw group. -/
theorem pyGet_map_processGroup (gs : List (String × List EVariant)) (k : String) :
    pyGet (gs.map (fun g => (g.1, processGroup g.2))) k =
      (pyGet gs k).map processGroup := by
  induction gs with
  | nil => rfl
  | cons g t ih =>
    obtain ⟨gk, gv⟩ := g
    simp only [List.map_cons, pyGet]
    by_cases hk : gk = k
    · rw [if_pos hk, if_pos hk]; rfl
    · rw [if_neg hk, if_neg hk]; exact ih

/-- The dedup fold keeps a seeded head and draws the tail from the input. -/
theorem dedupFold_shape :
    ∀ (t : List EVariant) (a : EVariant) (u : List EVariant),
      ∃ u', t.foldl (fun acc v =>
          if acc.any (fun x => x.enc = v.enc && x.immsz = v.immsz && x.tys = v.tys)
          then acc else acc ++ [v]) (a :: u) = a :: u' ∧
        ∀ x ∈ u', x ∈ u ∨ x ∈ t := by
  intro t
  induction t with
  | nil => intro a u; exact ⟨u, rfl, fun x hx => .inl hx⟩
  | cons v rest ih =>
    intro a u
    rw [List.foldl_cons]
    by_cases hc : ((a :: u).any
        (fun x => x.enc = v.enc && x.immsz = v.immsz && x.tys = v.tys)) = true
    · rw [if_pos hc]
      obtain ⟨u', h1, h2⟩ := ih a u
      exact ⟨u', h1, fun x hx => (h2 x hx).imp id (fun h' => List.mem_cons_of_mem v h')⟩
    · rw [if_neg hc]
      obtain ⟨u', h1, h2⟩ := ih a (u ++ [v])
      refine ⟨u', by simpa using h1, fun x hx => ?_⟩
      rcases h2 x hx with h' | h'
      · rcases List.mem_append.mp h' with h'' | h''
        · exact .inl h''
        · exact .inr (by simp at h''; simp [h''])
      · exact .inr (List.mem_cons_of_mem v h')

/-- `variantDedup` keeps the seeded NOP variant in front. -/
theorem variantDedup_shape (t : List EVariant) :
    ∃ u, variantDedup (nopSeed :: t) = nopSeed :: u ∧ ∀ x ∈ u, x ∈ t := by
  unfold variantDedup
  rw [List.foldl_cons]
  have h0 : (if ([] : List EVariant).any
      (fun x => x.enc = nopSeed.enc && x.immsz = nopSeed.immsz && x.tys = nopSeed.tys)
      then ([] : List EVariant) else [] ++ [nopSeed]) = [nopSeed] := by simp
  rw [h0]
  obtain ⟨u, h1, h2⟩ := dedupFold_shape t nopSeed []
  exact ⟨u, h1, fun x hx => (h2 x hx).resolve_left (by simp)⟩

/-- The seed's sort key `(0, 0)` is minimal among keys of variants with a
non-negative immediate size. -/
theorem nop_vkeyLe (v : EVariant) (hv : (0 : Int) ≤ v.immsz) :
    vkeyLe (vkey nopSeed) (vkey v) = true := by
  have hk : vkey nopSeed = (0, 0) := by decide
  rw [hk]
  unfold vkeyLe
  simp only [Bool.or_eq_true, Bool.and_eq_true, decide_eq_true_eq]
  rcases lt_or_eq_of_le hv with h | h
  · exact .inl h
  · exact .inr ⟨h, Nat.zero_le _⟩

/-- Insertion-sorting variants with non-negative immediate sizes into a list
headed by the seed keeps the seed in front. -/
theorem sortFold_nop :
    ∀ (t u : List EVariant), (∀ x ∈ t, (0 : Int) ≤ x.immsz) →
      ∃ u', t.foldl (fun acc v => sortIns v acc) (nopSeed :: u) = nopSeed :: u' := by
  intro t
  induction t with
  | nil => intro u _; exact ⟨u, rfl⟩
  | cons v rest ih =>
    intro u ht
    rw [List.foldl_cons]
    have hs : sortIns v (nopSeed :: u) = nopSeed :: sortIns v u := by
      show (if vkeyLe (vkey nopSeed) (vkey v) then nopSeed :: sortIns v u
            else v :: nopSeed :: u) = nopSeed :: sortIns v u
      rw [if_pos (nop_vkeyLe v (ht v (by simp)))]
    rw [hs]
    exact ih (sortIns v u) (fun x hx => ht x (by simp [hx]))

/-- `processGroup` keeps the seeded NOP variant at the head of its group. -/
theorem processGroup_nop (t : List EVariant) (ht : ∀ x ∈ t, (0 : Int) ≤ x.immsz) :
    ∃ u, processGroup (nopSeed :: t) = nopSeed :: u := by
  obtain ⟨u1, h1, hmem⟩ := variantDedup_shape t
  unfold processGroup
  rw [h1]
  unfold variantSort
  rw [List.foldl_cons]
  have h2 : sortIns nopSeed [] = [nopSeed] := rfl
  rw [h2]
  exact sortFold_nop u1 [] (fun x hx => ht x (hmem x hx))

/-- One `buildStep` keeps the seed in front with a non-negative-immediate
tail, given well-formed operand sizes for the entry. -/
theorem buildStep_nop (gs gs2 : List (String × List EVariant))
    (e : Opcode × InstrDesc) (t : List EVariant)
    (h : pyGet gs "FE_NOP" = some (nopSeed :: t))
    (ht : ∀ x ∈ t, (0 : Int) ≤ x.immsz)
    (hwf : ∀ op ∈ e.2.operands, 0 ≤ op.size ∨ op.size = OpKind.SZ_OP ∨
      op.size = OpKind.SZ_VEC)
    (hs : buildStep gs e = .ok gs2) :
    ∃ t', pyGet gs2 "FE_NOP" = some (nopSeed :: t') ∧
      ∀ x ∈ t', (0 : Int) ≤ x.immsz := by
  unfold buildStep at hs
  split at hs
  · simp only [pure, Except.pure, Except.ok.injEq] at hs
    subst hs
    exact ⟨t, h, ht⟩
  · simp only [bind, Except.bind] at hs
    cases hv : variantsOf e.1 e.2 with
    | error e2 => rw [hv] at hs; exact Except.noConfusion hs
    | ok vs =>
      rw [hv] at hs
      simp only [pure, Except.pure, Except.ok.injEq] at hs
      subst hs
      exact foldl_appendGroup_nop vs gs t h ht (variantsOf_imm e.1 e.2 vs hwf hv)

/-- The `buildStep` fold over any entry suffix keeps the seed in front. -/
theorem foldlM_buildStep_nop :
    ∀ (entries : List (Opcode × InstrDesc)) (acc gs : List (String × List EVariant))
      (t : List EVariant),
      pyGet acc "FE_NOP" = some (nopSeed :: t) →
      (∀ x ∈ t, (0 : Int) ≤ x.immsz) →
      (∀ e ∈ entries, ∀ op ∈ e.2.operands, 0 ≤ op.size ∨ op.size = OpKind.SZ_OP ∨
        op.size = OpKind.SZ_VEC) →
      List.foldlM buildStep acc entries = .ok gs →
      ∃ t', pyGet gs "FE_NOP" = some (nopSeed :: t') ∧
        ∀ x ∈ t', (0 : Int) ≤ x.immsz := by
  intro entries
  induction entries with
  | nil =>
    intro acc gs t h ht _ hf
    simp only [List.foldlM_nil, pure, Except.pure, Except.ok.injEq] at hf
    subst hf
    exact ⟨t, h, ht⟩
  | cons e rest ih =>
    intro acc gs t h ht hwf hf
    simp only [List.foldlM_cons, bind, Except.bind] at hf
    split at hf
    · exact Except.noConfusion hf
    · rename_i acc2 heq
      obtain ⟨t2, h2, ht2⟩ := buildStep_nop acc acc2 e t h ht (hwf e (by simp)) heq
      exact ih acc2 gs t2 h2 ht2 (fun e2 he2 => hwf e2 (by simp [he2])) hf

/-- `buildGroups` always yields an FE_NOP group seeded with the NOP variant,
followed only by variants with non-negative immediate sizes. -/
theorem buildGroups_nop (entries : List (Opcode × InstrDesc))
    (gs : List (String × List EVariant))
    (hwf : ∀ e ∈ entries, ∀ op ∈ e.2.operands, 0 ≤ op.size ∨ op.size = OpKind.SZ_OP ∨
      op.size = OpKind.SZ_VEC)
    (h : buildGroups entries = .ok gs) :
    ∃ t, pyGet gs "FE_NOP" = some (nopSeed :: t) ∧
      ∀ x ∈ t, (0 : Int) ≤ x.immsz := by
  unfold buildGroups at h
  exact foldlM_buildStep_nop entries [("FE_NOP", [nopSeed])] gs [] (by rfl)
    (by simp) hwf h

/-- Skipped entries (`RESERVED_` mnemonics, ONLY32 descriptors) contribute
nothing: filtering them away does not change the fold. -/
theorem foldlM_buildStep_filter :
    ∀ (entries : List (Opcode × InstrDesc)) (acc : List (String × List EVariant)),
      List.foldlM buildStep acc (entries.filter (fun e => ! skipEntry e.2)) =
      List.foldlM buildStep acc entries := by
  intro entries
  induction entries with
  | nil => intro acc; rfl
  | cons e rest ih =>
    intro acc
    rw [List.filter_cons]
    by_cases hs : skipEntry e.2
    · simp only [hs, Bool.not_true, reduceIte]
      rw [List.foldlM_cons]
      have hstep : buildStep acc e = pure acc := by
        unfold buildStep
        rw [if_pos hs]
      rw [hstep]
      simp only [pure, bind, Except.pure, Except.bind]
      exact ih acc
    · have hs' : skipEntry e.2 = false := by
        cases hsk : skipEntry e.2
        · rfl
        · exact absurd hsk hs
      simp only [hs', Bool.not_false, reduceIte]
      rw [List.foldlM_cons, List.foldlM_cons]
      simp only [bind, Except.bind]
      cases hb : buildStep acc e with
      | error e2 => rfl
      | ok acc2 => exact ih acc2

/-- C10: for every entry list whose operand sizes come from the OPKINDS range
(non-negative, or the symbolic SZ_OP/SZ_VEC), a successful `encode_table`
always produces an FE_NOP group headed by the seeded variant
`("NP", imm_size 0, tys 0, opcode "0x90")` — even when no NOP line is present —
and entries whose mnemonic starts with `RESERVED_` or whose flags include
`ONLY32` contribute no variant: dropping them from the input leaves the whole
table unchanged. -/
theorem spec_C10 (entries : List (Opcode × InstrDesc))
    (gs : List (String × List EVariant))
    (hwf : ∀ e ∈ entries, ∀ op ∈ e.2.operands, 0 ≤ op.size ∨ op.size = OpKind.SZ_OP ∨
      op.size = OpKind.SZ_VEC)
    (h : encodeTable entries = .ok gs) :
    nopSeed = ⟨"NP", 0, 0, "0x90"⟩ ∧
    (∃ vs, pyGet gs "FE_NOP" = some (nopSeed :: vs)) ∧
    encodeTable (entries.filter (fun e => ! skipEntry e.2)) = .ok gs := by
  refine ⟨rfl, ?_, ?_⟩
  · unfold encodeTable at h
    simp only [bind, Except.bind] at h
    cases hb : buildGroups entries with
    | error e => rw [hb] at h; exact Except.noConfusion h
    | ok gs0 =>
      rw [hb] at h
      simp only [pure, Except.pure, Except.ok.injEq] at h
      subst h
      obtain ⟨t, hget, ht⟩ := buildGroups_nop entries gs0 hwf hb
      rw [pyGet_map_processGroup, hget]
      obtain ⟨u, hu⟩ := processGroup_nop t ht
      exact ⟨u, by simp [hu]⟩
  · have hfil : buildGroups (entries.filter (fun e => ! skipEntry e.2)) =
        buildGroups entries := by
      unfold buildGroups
      exact foldlM_buildStep_filter entries _
    unfold encodeTable at h ⊢
    rw [hfil]
    exact h

theorem spec_C10_witness :
    nopSeed = ⟨"NP", 0, 0, "0x90"⟩ ∧
    (∃ vs, pyGet [("FE_NOP", [nopSeed])] "FE_NOP" = some (nopSeed :: vs)) ∧
    encodeTable (([] : List (Opcode × InstrDesc)).filter (fun e => ! skipEntry e.2)) =
      .ok [("FE_NOP", [nopSeed])] :=
  spec_C10 [] [("FE_NOP", [nopSeed])] (by simp) (by rfl)

theorem pyGet_append_none {α β : Type} [DecidableEq α] :
    ∀ (l : List (α × β)) (k : α), pyGet l k = none →
      ∀ l2, pyGet (l ++ l2) k = pyGet l2 k := by
  intro l
  induction l with
  | nil => intro k _ l2; rfl
  | cons p rest ih =>
    intro k h l2
    unfold pyGet at h
    split at h
    · exact Option.noConfusion h
    · rename_i hk
      simp only [List.cons_append, pyGet]
      rw [if_neg hk]
      exact ih k h l2

theorem mem_of_pyGet {α β : Type} [DecidableEq α] :
    ∀ (l : List (α × β)) (k : α) (v : β), pyGet l k = some v → (k, v) ∈ l := by
  intro l
  induction l with
  | nil => intro k v h; exact Option.noConfusion h
  | cons p rest ih =>
    intro k v h
    unfold pyGet at h
    split at h
    · rename_i hk
      simp only [Option.some.injEq] at h
      subst h
      subst hk
      exact List.mem_cons_self p rest
    · exact List.mem_cons_of_mem p (ih k v h)

theorem pyGet_of_mem_nodup {α β : Type} [DecidableEq α] :
    ∀ (l : List (α × β)), (l.map (·.1)).Nodup → ∀ p ∈ l, pyGet l p.1 = some p.2 := by
  intro l
  induction l with
  | nil => intro _ p hp; exact absurd hp (List.not_mem_nil p)
  | cons q rest ih =>
    intro hnd p hp
    simp only [List.map_cons, List.nodup_cons] at hnd
    rcases List.mem_cons.mp hp with h | h
    · subst h
      unfold pyGet
      rw [if_pos rfl]
    · unfold pyGet
      by_cases hk : q.1 = p.1
      · exact absurd (hk ▸ List.mem_map_of_mem (·.1) h) hnd.1
      · rw [if_neg hk]
        exact ih hnd.2 p h

theorem pyDel_sublist {α β : Type} [DecidableEq α] :
    ∀ (l : List (α × β)) (k : α), (pyDel l k).Sublist l := by
  intro l
  induction l with
  | nil => intro k; exact List.Sublist.refl []
  | cons p rest ih =>
    intro k
    unfold pyDel
    split
    · exact List.sublist_cons_self p rest
    · exact List.Sublist.cons₂ p (ih k)

theorem pyDel_key_ne {α β : Type} [DecidableEq α] :
    ∀ (l : List (α × β)) (k : α), (l.map (·.1)).Nodup →
      ∀ p ∈ pyDel l k, p.1 ≠ k := by
  intro l
  induction l with
  | nil => intro k _ p hp; exact absurd hp (List.not_mem_nil p)
  | cons q rest ih =>
    intro k hnd p hp
    simp only [List.map_cons, List.nodup_cons] at hnd
    unfold pyDel at hp
    split at hp
    · rename_i hk
      subst hk
      intro hpk
      exact hnd.1 (hpk ▸ List.mem_map_of_mem (·.1) hp)
    · rcases List.mem_cons.mp hp with h | h
      · rename_i hk
        subst h
        exact hk
      · exact ih k hnd.2 p h

theorem pySet_map_fst {α β : Type} [DecidableEq α] :
    ∀ (l : List (α × β)) (k : α) (v w : β), pyGet l k = some w →
      (pySet l k v).map (·.1) = l.map (·.1) := by
  intro l
  induction l with
  | nil => intro k v w h; exact Option.noConfusion h
  | cons p rest ih =>
    intro k v w h
    unfold pyGet at h
    unfold pySet
    split at h
    · rename_i hk
      rw [if_pos hk]
      rfl
    · rename_i hk
      rw [if_neg hk]
      simp only [List.map_cons]
      rw [ih k v w h]

theorem foldl_dedup_nodup :
    ∀ (l acc : List String), acc.Nodup →
      (l.foldl (fun acc n => if n ∈ acc then acc else acc ++ [n]) acc).Nodup := by
  intro l
  induction l with
  | nil => intro acc h; exact h
  | cons a t ih =>
    intro acc h
    rw [List.foldl_cons]
    by_cases ha : a ∈ acc
    · rw [if_pos ha]; exact ih acc h
    · rw [if_neg ha]
      refine ih _ ?_
      simp [List.nodup_append, h, ha]

/-- The rebuilt queue of a deduplication round has no duplicate names. -/
theorem dedupQueue_nodup (syn : List (String × String))
    (ps : List (Option String × List String)) : (dedupQueue syn ps).Nodup :=
  foldl_dedup_nodup _ [] List.nodup_nil

/-- The synonym-scanning phase: the surviving node map is a sub-map of the
input, and every surviving node is registered in the value-to-name map under
its own name. -/
theorem dedupPhase1_spec :
    ∀ (q : List String) (data : List (String × TrieEntry))
      (entries : List (TrieEntry × String)) (syn0 : List (String × String))
      (data1 : List (String × TrieEntry)) (entries1 : List (TrieEntry × String))
      (syn1 : List (String × String)),
      q.Nodup → (data.map (·.1)).Nodup →
      (∀ p ∈ data, p.1 ∉ q → pyGet entries p.2 = some p.1) →
      dedupPhase1 q data entries syn0 = .ok (data1, entries1, syn1) →
      data1.Sublist data ∧ (∀ p ∈ data1, pyGet entries1 p.2 = some p.1) := by
  intro q
  induction q with
  | nil =>
    intro data entries syn0 data1 entries1 syn1 _ hnd hreg h
    unfold dedupPhase1 at h
    simp only [Except.ok.injEq, Prod.mk.injEq] at h
    obtain ⟨h1, h2, -⟩ := h
    subst h1
    subst h2
    exact ⟨List.Sublist.refl data, fun p hp => hreg p hp (List.not_mem_nil p.1)⟩
  | cons n q0 ih =>
    intro data entries syn0 data1 entries1 syn1 hq hnd hreg h
    unfold dedupPhase1 at h
    cases hd : pyGet data n with
    | none => rw [hd] at h; exact Except.noConfusion h
    | some e =>
      rw [hd] at h
      try dsimp only at h
      cases he : pyGet entries e with
      | some c =>
        rw [he] at h
        try dsimp only at h
        have hsub : (pyDel data n).Sublist data := pyDel_sublist data n
        have hnd' : ((pyDel data n).map (·.1)).Nodup :=
          (hsub.map (·.1)).nodup hnd
        have hreg' : ∀ p ∈ pyDel data n, p.1 ∉ q0 → pyGet entries p.2 = some p.1 := by
          intro p hp hpq
          have hpn : p.1 ≠ n := pyDel_key_ne data n hnd p hp
          exact hreg p (hsub.subset hp) (by simp [hpn, hpq])
        obtain ⟨hsub1, hA⟩ := ih (pyDel data n) entries (syn0 ++ [(n, c)])
          data1 entries1 syn1 (List.Nodup.of_cons hq) hnd' hreg' h
        exact ⟨hsub1.trans hsub, hA⟩
      | none =>
        rw [he] at h
        try dsimp only at h
        have hreg' : ∀ p ∈ data, p.1 ∉ q0 →
            pyGet (entries ++ [(e, n)]) p.2 = some p.1 := by
          intro p hp hpq
          by_cases hpn : p.1 = n
          · have hval : pyGet data p.1 = some p.2 := pyGet_of_mem_nodup data hnd p hp
            rw [hpn, hd] at hval
            have hpe : p.2 = e := (Option.some.inj hval).symm
            rw [hpe, hpn]
            rw [pyGet_append_none entries e he [(e, n)]]
            simp [pyGet]
          · exact pyGet_append_left entries p.2 p.1
              (hreg p hp (by simp [hpn, hpq])) _
        exact ih data (entries ++ [(e, n)]) syn0 data1 entries1 syn1
          (List.Nodup.of_cons hq) hnd hreg' h

/-- The rewrite phase changes no key and touches only queued nodes. -/
theorem dedupPhase2_spec :
    ∀ (q : List String) (syn : List (String × String))
      (data : List (String × TrieEntry)) (ps : List (Option String × List String))
      (data2 : List (String × TrieEntry)) (ps2 : List (Option String × List String)),
      dedupPhase2 q syn data ps = .ok (data2, ps2) →
      data2.map (·.1) = data.map (·.1) ∧
      (∀ m, m ∉ q → pyGet data2 m = pyGet data m) := by
  intro q
  induction q with
  | nil =>
    intro syn data ps data2 ps2 h
    unfold dedupPhase2 at h
    simp only [Except.ok.injEq, Prod.mk.injEq] at h
    obtain ⟨h1, -⟩ := h
    subst h1
    exact ⟨rfl, fun m _ => rfl⟩
  | cons n q0 ih =>
    intro syn data ps data2 ps2 h
    unfold dedupPhase2 at h
    cases hd : pyGet data n with
    | none => rw [hd] at h; exact Except.noConfusion h
    | some e =>
      rw [hd] at h
      try dsimp only at h
      obtain ⟨h1, h2⟩ := ih _ _ _ _ _ h
      constructor
      · rw [h1]
        exact pySet_map_fst data n _ e hd
      · intro m hm
        have hm0 : m ∉ q0 := fun hh => hm (List.mem_cons_of_mem n hh)
        have hmn : m ≠ n := fun hh => hm (by simp [hh])
        rw [h2 m hm0, pyGet_pySet_ne data n m _ hmn]

/-- The deduplication loop: starting from a duplicate-free queue covering all
unregistered nodes, a successful run ends with pairwise structurally distinct
node values. -/
theorem dedupGo_inj :
    ∀ (fuel : Nat) (q : List String) (data : List (String × TrieEntry))
      (ps : List (Option String × List String)) (entries : List (TrieEntry × String))
      (out : List (String × TrieEntry)),
      q.Nodup → (data.map (·.1)).Nodup →
      (∀ p ∈ data, p.1 ∉ q → pyGet entries p.2 = some p.1) →
      dedupGo fuel q data ps entries = .ok out →
      ∀ p1 ∈ out, ∀ p2 ∈ out, p1.1 ≠ p2.1 → p1.2 ≠ p2.2 := by
  intro fuel
  induction fuel with
  | zero =>
    intro q data ps entries out hq hnd hreg h
    cases q with
    | nil =>
      unfold dedupGo at h
      simp only [Except.ok.injEq] at h
      subst h
      intro p1 hp1 p2 hp2 hne heq
      have r1 := hreg p1 hp1 (List.not_mem_nil _)
      have r2 := hreg p2 hp2 (List.not_mem_nil _)
      rw [heq, r2] at r1
      exact hne (Option.some.inj r1).symm
    | cons a q0 =>
      unfold dedupGo at h
      exact Except.noConfusion h
  | succ fuel ih =>
    intro q data ps entries out hq hnd hreg h
    cases q with
    | nil =>
      unfold dedupGo at h
      simp only [Except.ok.injEq] at h
      subst h
      intro p1 hp1 p2 hp2 hne heq
      have r1 := hreg p1 hp1 (List.not_mem_nil _)
      have r2 := hreg p2 hp2 (List.not_mem_nil _)
      rw [heq, r2] at r1
      exact hne (Option.some.inj r1).symm
    | cons a q0 =>
      unfold dedupGo at h
      simp only [bind, Except.bind] at h
      cases hph1 : dedupPhase1 (a :: q0) data entries [] with
      | error e => rw [hph1] at h; exact Except.noConfusion h
      | ok r =>
        rw [hph1] at h
        obtain ⟨data1, entries1, syn⟩ := r
        try dsimp only at h
        obtain ⟨hsub1, hA⟩ :=
          dedupPhase1_spec (a :: q0) data entries [] data1 entries1 syn hq hnd hreg hph1
        have hnd1 : (data1.map (·.1)).Nodup := (hsub1.map (·.1)).nodup hnd
        cases syn with
        | nil =>
          simp only [Except.ok.injEq] at h
          subst h
          intro p1 hp1 p2 hp2 hne heq
          have r1 := hA p1 hp1
          have r2 := hA p2 hp2
          rw [heq, r2] at r1
          exact hne (Option.some.inj r1).symm
        | cons s srest =>
          try dsimp only at h
          cases hph2 : dedupPhase2 (dedupQueue (s :: srest) ps) (s :: srest) data1 ps with
          | error e => rw [hph2] at h; exact Except.noConfusion h
          | ok r2 =>
            rw [hph2] at h
            obtain ⟨data2, ps2⟩ := r2
            try dsimp only at h
            obtain ⟨hkeys, hlook⟩ :=
              dedupPhase2_spec (dedupQueue (s :: srest) ps) (s :: srest) data1 ps
                data2 ps2 hph2
            have hnd2 : (data2.map (·.1)).Nodup := by rw [hkeys]; exact hnd1
            have hreg2 : ∀ p ∈ data2, p.1 ∉ dedupQueue (s :: srest) ps →
                pyGet entries1 p.2 = some p.1 := by
              intro p hp hpq
              have h1 : pyGet data2 p.1 = some p.2 := pyGet_of_mem_nodup data2 hnd2 p hp
              rw [hlook p.1 hpq] at h1
              exact hA _ (mem_of_pyGet data1 p.1 p.2 h1)
            exact ih (dedupQueue (s :: srest) ps) data2 ps2 entries1 out
              (dedupQueue_nodup (s :: srest) ps) hnd2 hreg2 h

/-- C4: after `deduplicate` succeeds on a table whose node names are unique,
no two distinct remaining node names map to structurally equal values (same
kind, same child-link tuple, same descriptor index). -/
theorem spec_C4 (st st2 : TableState)
    (hnd : (st.data.map (·.1)).Nodup)
    (h : st.deduplicate = .ok st2) :
    ∀ p1 ∈ st2.data, ∀ p2 ∈ st2.data, p1.1 ≠ p2.1 → p1.2 ≠ p2.2 := by
  unfold TableState.deduplicate at h
  simp only [bind, Except.bind] at h
  cases hd : dedupData st.data with
  | error e => rw [hd] at h; exact Except.noConfusion h
  | ok d =>
    rw [hd] at h
    simp only [pure, Except.pure, Except.ok.injEq] at h
    subst h
    unfold dedupData at hd
    exact dedupGo_inj (st.data.length + 1) (st.data.map (·.1)) st.data
      (buildParents st.data) [] d hnd hnd
      (fun p hp hmem => absurd (List.mem_map_of_mem (·.1) hp) hmem) hd

theorem spec_C4_witness :
    ((mkTable 1).data.map (·.1)).Nodup ∧
    ∀ p1 ∈ (mkTable 1).data, ∀ p2 ∈ (mkTable 1).data, p1.1 ≠ p2.1 → p1.2 ≠ p2.2 :=
  ⟨by decide, spec_C4 (mkTable 1) (mkTable 1) (by decide) (by decide)⟩

/-- The "total serialized size" the specification speaks about: the sum of
the 4-aligned item counts of all table (non-INSTR) nodes.  This is the
spec-side quantity `calc_offsets`' running counter accumulates. -/
def specTotalWords (data : List (String × TrieEntry)) : Nat :=
  ((data.filter (fun p => p.2.kind ≠ EntryKind.INSTR)).map
    (fun p => alignLen p.2.items.length)).sum

/-- A successful offset pass: the final counter stays under 0x8000; INSTR
nodes get `descidx <<< 2` (with no bound check), other nodes a running
offset bounded by the final counter. -/
theorem calcOffsetsGo_ok_spec :
    ∀ (data : List (String × TrieEntry)) (cur : Nat) (acc : List (String × Nat))
      (offs : List (String × Nat)) (total : Nat),
      calcOffsetsGo data cur acc = .ok (offs, total) →
      total < 0x8000 ∧ cur ≤ total ∧
      ∀ p ∈ offs, p ∈ acc ∨ ∃ e, (p.1, e) ∈ data ∧
        ((e.kind = EntryKind.INSTR ∧ ∃ i, e.descidx = DescIdx.idx i ∧ p.2 = i <<< 2) ∨
         (e.kind ≠ EntryKind.INSTR ∧ p.2 ≤ total)) := by
  intro data
  induction data with
  | nil =>
    intro cur acc offs total h
    unfold calcOffsetsGo at h
    split at h
    · exact Except.noConfusion h
    · rename_i hc
      simp only [Except.ok.injEq, Prod.mk.injEq] at h
      obtain ⟨h1, h2⟩ := h
      subst h1
      subst h2
      exact ⟨by omega, le_refl _, fun p hp => .inl hp⟩
  | cons pe rest ih =>
    intro cur acc offs total h
    obtain ⟨n, e⟩ := pe
    unfold calcOffsetsGo at h
    by_cases hk : e.kind = EntryKind.INSTR
    · rw [if_pos hk] at h
      cases hdx : e.descidx with
      | idx i =>
        rw [hdx] at h
        try dsimp only at h
        obtain ⟨h1, h2, h3⟩ := ih cur (acc ++ [(n, i <<< 2)]) offs total h
        refine ⟨h1, h2, ?_⟩
        intro p hp
        rcases h3 p hp with hin | ⟨e', he', hcase⟩
        · rcases List.mem_append.mp hin with ha | hb
          · exact .inl ha
          · simp only [List.mem_singleton] at hb
            subst hb
            exact .inr ⟨e, List.mem_cons_self _ _, .inl ⟨hk, i, hdx, rfl⟩⟩
        · exact .inr ⟨e', List.mem_cons_of_mem _ he', hcase⟩
      | emptyTup =>
        rw [hdx] at h
        exact Except.noConfusion h
      | pyNone =>
        rw [hdx] at h
        exact Except.noConfusion h
    · rw [if_neg hk] at h
      obtain ⟨h1, h2, h3⟩ := ih (cur + alignLen e.items.length) (acc ++ [(n, cur)])
        offs total h
      refine ⟨h1, by omega, ?_⟩
      intro p hp
      rcases h3 p hp with hin | ⟨e', he', hcase⟩
      · rcases List.mem_append.mp hin with ha | hb
        · exact .inl ha
        · simp only [List.mem_singleton] at hb
          subst hb
          exact .inr ⟨e, List.mem_cons_self _ _, .inr ⟨hk, by omega⟩⟩
      · exact .inr ⟨e', List.mem_cons_of_mem _ he', hcase⟩

/-- The offset pass aborts with the size error exactly when every INSTR node
has an integer descriptor index (otherwise the type error hits first) and the
accumulated word count reaches 0x8000. -/
theorem calcOffsetsGo_err_spec :
    ∀ (data : List (String × TrieEntry)) (cur : Nat) (acc : List (String × Nat)),
      calcOffsetsGo data cur acc = .error .maxTableSize ↔
        (∀ p ∈ data, p.2.kind = EntryKind.INSTR → ∃ i, p.2.descidx = DescIdx.idx i) ∧
        0x8000 ≤ cur + specTotalWords data := by
  intro data
  induction data with
  | nil =>
    intro cur acc
    unfold calcOffsetsGo
    by_cases hc : cur ≥ 0x8000
    · rw [if_pos hc]
      simp [specTotalWords]
      omega
    · rw [if_neg hc]
      constructor
      · intro h
        exact Except.noConfusion h
      · rintro ⟨-, hs⟩
        simp [specTotalWords] at hs
        omega
  | cons pe rest ih =>
    intro cur acc
    obtain ⟨n, e⟩ := pe
    unfold calcOffsetsGo
    by_cases hk : e.kind = EntryKind.INSTR
    · rw [if_pos hk]
      cases hdx : e.descidx with
      | idx i =>
        have hspec : specTotalWords ((n, e) :: rest) = specTotalWords rest := by
          simp [specTotalWords, List.filter_cons, hk]
        rw [hspec, ih cur (acc ++ [(n, i <<< 2)])]
        constructor
        · rintro ⟨hv, hs⟩
          refine ⟨?_, hs⟩
          intro p hp hpk
          rcases List.mem_cons.mp hp with h' | h'
          · subst h'
            exact ⟨i, hdx⟩
          · exact hv p h' hpk
        · rintro ⟨hv, hs⟩
          exact ⟨fun p hp hpk => hv p (List.mem_cons_of_mem _ hp) hpk, hs⟩
      | emptyTup =>
        constructor
        · intro h
          simp at h
        · rintro ⟨hv, -⟩
          obtain ⟨i, hi⟩ := hv (n, e) (List.mem_cons_self _ _) hk
          rw [hdx] at hi
          exact DescIdx.noConfusion hi
      | pyNone =>
        constructor
        · intro h
          simp at h
        · rintro ⟨hv, -⟩
          obtain ⟨i, hi⟩ := hv (n, e) (List.mem_cons_self _ _) hk
          rw [hdx] at hi
          exact DescIdx.noConfusion hi
    · rw [if_neg hk]
      have hspec : specTotalWords ((n, e) :: rest) =
          alignLen e.items.length + specTotalWords rest := by
        simp [specTotalWords, List.filter_cons, hk]
      rw [hspec, ih (cur + alignLen e.items.length) (acc ++ [(n, cur)])]
      constructor
      · rintro ⟨hv, hs⟩
        refine ⟨?_, by omega⟩
        intro p hp hpk
        rcases List.mem_cons.mp hp with h' | h'
        · subst h'
          exact absurd hpk hk
        · exact hv p h' hpk
      · rintro ⟨hv, hs⟩
        exact ⟨fun p hp hpk => hv p (List.mem_cons_of_mem _ hp) hpk, by omega⟩

/-- Table kinds other than NONE/INSTR/ROOT have values 2..6 and produce a
16-bit link word from a bounded offset. -/
theorem table_kind_word (off : Nat) (k : EntryKind) (hoff : off < 0x8000)
    (h1 : k ≠ EntryKind.INSTR) (h2 : k ≠ EntryKind.NONE)
    (h3 : k ≠ EntryKind.TABLE_ROOT) :
    k.value = (k.value.toNat : Int) ∧ 1 ≤ k.value.toNat ∧ k.value.toNat ≤ 6 ∧
    ((off <<< 1) ||| k.value.toNat) < 0x10000 := by
  have hb : off <<< 1 < 2 ^ 16 := by
    rw [Nat.shiftLeft_eq]
    omega
  have hword : ∀ m : Nat, m ≤ 6 → ((off <<< 1) ||| m) < 0x10000 := by
    intro m hm
    have hm16 : m < 2 ^ 16 := by omega
    have := Nat.or_lt_two_pow hb hm16
    omega
  cases k with
  | NONE => exact absurd rfl h2
  | INSTR => exact absurd rfl h1
  | TABLE_ROOT => exact absurd rfl h3
  | TABLE256 => exact ⟨rfl, by decide, by decide, hword 2 (by decide)⟩
  | TABLE16 => exact ⟨rfl, by decide, by decide, hword 3 (by decide)⟩
  | TABLE8E => exact ⟨rfl, by decide, by decide, hword 4 (by decide)⟩
  | TABLE_PREFIX => exact ⟨rfl, by decide, by decide, hword 5 (by decide)⟩
  | TABLE_VEX => exact ⟨rfl, by decide, by decide, hword 6 (by decide)⟩

/-- C3 (amended): on a table with unique node names, a successful offset pass
keeps the final word count under 0x8000; links to table nodes (kinds 2..6)
are `(offset <<< 1) ||| kind` with `offset < 0x8000` and fit in 16 bits; but
INSTR leaf offsets are synthesized as `descidx <<< 2` with **no** bound check
(`spec_C3_counterexample` exhibits a compiling table emitting a 17-bit INSTR
link).  The pass aborts with the size error exactly when all INSTR descriptor
indices are integers and the total serialized size reaches 0x8000 words. -/
theorem spec_C3 (data : List (String × TrieEntry))
    (hnd : (data.map (·.1)).Nodup) :
    (∀ offs total, calcOffsets data = .ok (offs, total) →
      total < 0x8000 ∧
      ∀ n off e, pyGet offs n = some off → pyGet data n = some e →
        ((e.kind = EntryKind.INSTR → ∃ i, e.descidx = DescIdx.idx i ∧ off = i <<< 2) ∧
         (e.kind ≠ EntryKind.INSTR → off < 0x8000 ∧
           (e.kind ≠ EntryKind.NONE → e.kind ≠ EntryKind.TABLE_ROOT →
             encodeItem offs data n =
               some (((off <<< 1) ||| e.kind.value.toNat : Nat) : Int) ∧
             1 ≤ e.kind.value.toNat ∧ e.kind.value.toNat ≤ 6 ∧
             ((off <<< 1) ||| e.kind.value.toNat) < 0x10000)))) ∧
    (calcOffsets data = .error .maxTableSize ↔
      (∀ p ∈ data, p.2.kind = EntryKind.INSTR → ∃ i, p.2.descidx = DescIdx.idx i) ∧
      0x8000 ≤ specTotalWords data) := by
  constructor
  · intro offs total h
    obtain ⟨h1, h2, h3⟩ := calcOffsetsGo_ok_spec data 0 [] offs total h
    refine ⟨h1, ?_⟩
    intro n off e hoff hdat
    have hmem : (n, off) ∈ offs := mem_of_pyGet offs n off hoff
    rcases h3 (n, off) hmem with hin | ⟨e', he', hcase⟩
    · exact absurd hin (List.not_mem_nil _)
    · have heq : e' = e := by
        have hh := pyGet_of_mem_nodup data hnd (n, e') he'
        rw [hdat] at hh
        exact (Option.some.inj hh).symm
      subst heq
      constructor
      · intro hk
        rcases hcase with ⟨-, i, hdx, hoffeq⟩ | ⟨hk2, -⟩
        · exact ⟨i, hdx, hoffeq⟩
        · exact absurd hk hk2
      · intro hk
        rcases hcase with ⟨hk2, -⟩ | ⟨-, hle⟩
        · exact absurd hk2 hk
        · have hoffb : off < 0x8000 := lt_of_le_of_lt hle h1
          refine ⟨hoffb, ?_⟩
          intro hn hr
          obtain ⟨hv, hge1, hle6, hword⟩ := table_kind_word off e'.kind hoffb hk hn hr
          refine ⟨?_, hge1, hle6, hword⟩
          rw [show encodeItem offs data n = some (pyOrNI (off <<< 1) e'.kind.value)
            from by simp [encodeItem, hoff, hdat]]
          rw [hv]
          rfl
  · have hh := calcOffsetsGo_err_spec data 0 []
    unfold calcOffsets
    simpa using hh

theorem spec_C3_witness :
    (([("root0", TrieEntry.table EntryKind.TABLE_ROOT)].map
        (fun p : String × TrieEntry => p.1)).Nodup) ∧
    (calcOffsets [("root0", TrieEntry.table EntryKind.TABLE_ROOT)] =
        .error .maxTableSize ↔
      (∀ p ∈ [("root0", TrieEntry.table EntryKind.TABLE_ROOT)],
        p.2.kind = EntryKind.INSTR → ∃ i, p.2.descidx = DescIdx.idx i) ∧
      0x8000 ≤ specTotalWords [("root0", TrieEntry.table EntryKind.TABLE_ROOT)]) :=
  ⟨by decide,
    (spec_C3 [("root0", TrieEntry.table EntryKind.TABLE_ROOT)] (by decide)).2⟩
